import Mathlib

/-!
# psd-reader: a verification development

Shallow embedding of `src/psd.core.js`, `src/psd.core.async.js` and
`src/psd.parser.raw.js`, followed by theorems about the embedded functions.

Conventions of the embedding:

* an `ArrayBuffer` is a list of bytes, a `Uint8Array` is a window
  `(buffer, byteOffset, length)` onto one (no bytes are copied);
* a JavaScript `undefined` read from a typed array is `none`;
* 32-bit integer operators (`<<`, `&`, `|0`) go through `toInt32`;
* effects (pushing to `bitmaps`, calling a callback, reading the clock) are
  explicit state passing.
-/

namespace PsdReader

/-! ## Bytes, buffers and typed-array views -/

/-- One octet. -/
abbrev Byte := Fin 256

/-- An `ArrayBuffer`: a fixed sequence of bytes. -/
abbrev ArrayBuffer := List Byte

/-- A `Uint8Array` view: `length` bytes of `buffer` starting at `byteOffset`. -/
structure Uint8Array where
  buffer : ArrayBuffer
  byteOffset : Nat
  length : Nat
deriving DecidableEq, Repr

/-- The element read `view[i]`; `none` stands for `undefined`. -/
def Uint8Array.get? (v : Uint8Array) (i : Nat) : Option Byte :=
  if i < v.length then v.buffer[v.byteOffset + i]? else none

/-- The bytes a view shows, in order. -/
def Uint8Array.toList (v : Uint8Array) : List Byte :=
  (v.buffer.drop v.byteOffset).take v.length

/-- The constructor `new Uint8Array(buffer, byteOffset, length)` with an explicit
length: it throws a `RangeError` when the window leaves the buffer. -/
def Uint8Array.create (buffer : ArrayBuffer) (byteOffset length : Nat) :
    Except String Uint8Array :=
  if byteOffset + length ≤ buffer.length then
    .ok { buffer := buffer, byteOffset := byteOffset, length := length }
  else .error "RangeError"

/-- A view made over a whole list of bytes. -/
def Uint8Array.ofList (bytes : List Byte) : Uint8Array :=
  { buffer := bytes, byteOffset := 0, length := bytes.length }

/-! ## 32-bit integer operators -/

/-- The abstract operation `ToInt32` on an integral number. -/
def toInt32 (n : Int) : Int :=
  let r := n % 2 ^ 32
  if 2 ^ 31 ≤ r then r - 2 ^ 32 else r

/-- The operator `x << k` for a typed-array read `x` (`undefined << k` is `0`). -/
def shl (x : Option Byte) (k : Nat) : Int :=
  match x with
  | none => 0
  | some b => toInt32 ((b.val : Int) * 2 ^ (k % 32))

/-- The operator `a & b` on integral numbers. -/
def jsAnd (a b : Int) : Int :=
  toInt32 (((a % 2 ^ 32).toNat &&& (b % 2 ^ 32).toNat : Nat) : Int)

/-! ## `indexToInt` (psd.core.js) -/

/-- The method `indexToInt`:
`var v = 0xff000000 + (tbl[index + 512]<<16) + (tbl[index + 256]<<8) + tbl[index];`
`return alpha ? v & 0xffffff : v;`
The result `none` stands for `NaN` (adding `undefined`). -/
def indexToInt (tbl : Uint8Array) (index : Nat) (alpha : Bool) : Option Int :=
  let v : Option Int :=
    (tbl.get? index).map fun r =>
      0xff000000 + shl (tbl.get? (index + 512)) 16 + shl (tbl.get? (index + 256)) 8 + (r.val : Int)
  if alpha then
    match v with
    | none => some 0
    | some n => some (jsAnd n 0xffffff)
  else v

/-- The table of the specification's example: `tbl[i] = i`, `tbl[i+256] = 255-i`,
`tbl[i+512] = 2i mod 256`. -/
def exampleTable : Uint8Array :=
  Uint8Array.ofList
    ((List.range 768).map fun j =>
      if j < 256 then (Fin.ofNat j : Byte)
      else if j < 512 then (Fin.ofNat (255 - (j - 256)) : Byte)
      else (Fin.ofNat (2 * (j - 512)) : Byte))

/-! ## `_raw` (psd.parser.raw.js) -/

/-- The fields of `info` read by `_raw`. -/
structure RawInfo where
  channels : Nat
  channelSize : Nat
deriving DecidableEq, Repr

/-- The part of the reader's state `_raw` acts on: the `bitmaps` array and the
number of times the completion callback has been called. -/
structure RawState where
  bitmaps : List Uint8Array
  callbackCalls : Nat
deriving DecidableEq, Repr

/-- The loop `for (i = 0; i < info.channels; i++, pos += len)
bitmaps.push(new Uint8Array(view.buffer, pos, len))`, with `todo` the number of
iterations left. A `RangeError` of the constructor ends it. -/
def rawLoop (buffer : ArrayBuffer) (len : Nat) :
    (todo : Nat) → (pos : Nat) → List Uint8Array → Except String (List Uint8Array)
  | 0, _, bitmaps => .ok bitmaps
  | todo + 1, pos, bitmaps =>
    match Uint8Array.create buffer pos len with
    | .error e => .error e
    | .ok plane => rawLoop buffer len todo (pos + len) (bitmaps ++ [plane])

/-- The method `_raw(view, pos, info, callback)`: the loop, then `callback()`. -/
def _raw (buffer : ArrayBuffer) (pos : Nat) (info : RawInfo) (s : RawState) :
    Except String RawState :=
  match rawLoop buffer info.channelSize info.channels pos s.bitmaps with
  | .error e => .error e
  | .ok bitmaps => .ok { bitmaps := bitmaps, callbackCalls := s.callbackCalls + 1 }

/-- The planes `_raw` is expected to push: windows of `len` bytes at
`pos`, `pos + len`, ... -/
def rawPlanes (buffer : ArrayBuffer) (pos len n : Nat) : List Uint8Array :=
  (List.range n).map fun i => { buffer := buffer, byteOffset := pos + i * len, length := len }

/-- The raw image data of the specification's 2x2 8-bit RGB scenario. -/
def rgbScenario : ArrayBuffer := [10, 20, 30, 40, 1, 2, 3, 4, 5, 6, 7, 8]

/-! ## `getIndexTable` (psd.core.js) -/


/-- A pseudo chunk of `info.chunks`: a position and a length in the buffer. -/
structure Chunk where
  pos : Nat
  length : Nat
deriving DecidableEq, Repr

/-- The method `getIndexTable`:
`var ci = this.info.chunks[1];`
`return ci.length ? new Uint8Array(this.buffer, ci.pos, ci.length) : null`.
The argument `ci` is `info.chunks[1]`, the colour-mode-data chunk; `none` is
`null`. -/
def getIndexTable (buffer : ArrayBuffer) (ci : Chunk) : Except String (Option Uint8Array) :=
  if ci.length ≠ 0 then
    match Uint8Array.create buffer ci.pos ci.length with
    | .error e => .error e
    | .ok t => .ok (some t)
  else .ok none

/-- A duotone document: a 26-byte header (`8BPS`, version 1, one channel,
1 x 1 pixels, depth 8, colour mode 8), a colour-mode-data section of 524 bytes
(length field `00 00 02 0C` at position 26, data at position 30), empty
image-resource and layer sections, and raw image data of one pixel. -/
def duotoneBuffer : ArrayBuffer :=
  [56, 66, 80, 83, 0, 1, 0, 0, 0, 0, 0, 0, 0, 1, 0, 0, 0, 1, 0, 0, 0, 1, 0, 8, 0, 8,
   0, 0, 2, 12]
  ++ (List.range 524).map (fun j => (Fin.ofNat j : Byte))
  ++ [0, 0, 0, 0, 0, 0, 0, 0, 0, 0, 7]

/-! ## The constructor's data-source check (psd.core.js) -/

/-- The options the constructor reads before it starts loading or parsing.
`url` is absent or a string, `buffer` is absent or an `ArrayBuffer`; `onError`
and `onReady` tell whether a handler was given. -/
structure Options where
  url : Option String
  buffer : Option ArrayBuffer
  onError : Bool
  onReady : Bool
  passive : Bool
deriving DecidableEq, Repr

/-- What the calls made inside the constructor's `try` block do: `some msg` when
the call throws an error with that message. -/
structure Host where
  fetchThrows : Option String
  onreadyThrows : Option String
  parserThrows : Option String
deriving DecidableEq, Repr

/-- Observable actions of the constructor. -/
inductive Effect where
  /-- Timer `setTimeout(sendErr, 1)`: `onerror` will get `{message, source, timeStamp}`. -/
  | scheduleError (message source : String)
  /-- Statement `throw new TypeError(msg)`. -/
  | throwTypeError (message : String)
  /-- Call of `me._fetch(config.url, ...)`. -/
  | fetch (url : String)
  /-- Call of `onready` with `{url, timeStamp}`. -/
  | ready (url : Option String)
  /-- Call of `me._parser(me.buffer)`. -/
  | parser
deriving DecidableEq, Repr

/-- The handler `this._err(msg, src)`:
`if (me.onerror) setTimeout(sendErr.bind(me), 1); else throw new TypeError(msg);` -/
def _err (onerror : Bool) (msg src : String) : Effect :=
  if onerror then .scheduleError msg src else .throwTypeError msg

/-- How the constructor is left: at one of the two `return`s of the data-source
check, or after the `try` block that invokes the loader or the parser. -/
inductive Outcome where
  | sourceError (report : Effect)
  | started (effects : List Effect)
deriving DecidableEq, Repr

/-- The `try` block: calls in order, up to the first one that throws; the
`catch` clause hands the message to `_err`. -/
def tryBlock (o : Options) (h : Host) (url : String) : List Effect :=
  let caught (e : Option String) : List Effect :=
    match e with
    | none => []
    | some msg => [_err o.onError msg "core"]
  if url ≠ "" then
    .fetch url :: caught h.fetchThrows
  else
    let afterReady : List Effect × Bool :=
      if o.onReady then
        match h.onreadyThrows with
        | none => ([.ready none], true)
        | some msg => ([.ready none, _err o.onError msg "core"], false)
      else ([], true)
    if afterReady.2 && !o.passive then
      afterReady.1 ++ .parser :: caught h.parserThrows
    else afterReady.1

/-- The constructor `PsdReader(options)` from the data-source check on:
`config.url = options.url || ""`, `me.buffer = options.buffer || null`, then
`if ((!url || typeof url !== "string" || (url && !url.length)) && !me.buffer)`
and `else if (url && me.buffer)`. -/
def construct (o : Options) (h : Host) : Outcome :=
  let url : String := o.url.getD ""
  let buffer : Option ArrayBuffer := o.buffer
  if (url == "" || false || (url != "" && url.length == 0)) && buffer.isNone then
    .sourceError (_err o.onError "Buffer nor URL specified" "core")
  else if url != "" && buffer.isSome then
    .sourceError (_err o.onError "Both URL and buffer specified" "core")
  else .started (tryBlock o h url)

/-- Options with neither a `url` nor a `buffer`, and no error handler. -/
def noSourceOptions : Options :=
  { url := none, buffer := none, onError := false, onReady := false, passive := false }

/-- Options with both a `url` and a `buffer`, and an error handler. -/
def bothSourcesOptions : Options :=
  { url := some "a.psd", buffer := some [56, 66, 80, 83], onError := true, onReady := false,
    passive := false }

/-- A host in which no call of the `try` block throws. -/
def quietHost : Host := { fetchThrows := none, onreadyThrows := none, parserThrows := none }

/-! ## `_async` (psd.core.async.js) -/

/-- The static scheduler constants read by `_async`. A constant that is never
assigned reads as `undefined`, which is `none` here. -/
structure AsyncConsts where
  /-- Constant `PsdReader._bSz`. -/
  _bSz : Int
  /-- Constant `PsdReader._delay`. -/
  _delay : Int
  /-- Constant `PsdReader._to`. -/
  _to : Option Int
deriving DecidableEq, Repr

/-- The constants as the sources define them: `PsdReader._bSz = 1<<21`,
`PsdReader._delay = 8`; no source file assigns `PsdReader._to`. -/
def sourceConsts : AsyncConsts := { _bSz := 2 ^ 21, _delay := 8, _to := none }

/-- What the driver does, in order. -/
inductive Event where
  /-- Reading `Date.now()` returned `t`. -/
  | now (t : Int)
  /-- Call number `n` of `func` (from 0) started at time `t` and returned `r`. -/
  | call (n : Nat) (t : Int) (r : Bool)
  /-- Timer `setTimeout(_async, delay)`. -/
  | setTimeout (delay : Int)
  /-- Call of `callback()`. -/
  | callback
deriving DecidableEq, Repr

/-- The variables closed over by the inner function `_async`, with the number of
actions performed so far (`tick`), the number of calls of `func` so far and the
events so far. `lastTime = none` is `NaN`. -/
structure AsyncState where
  block : Int
  done : Bool
  lastTime : Option Int
  tick : Nat
  calls : Nat
  trace : List Event
deriving DecidableEq, Repr

/-- The comparison `t < lastTime`; it is false when `lastTime` is `NaN`. -/
def beforeDeadline (t : Int) (lastTime : Option Int) : Bool :=
  match lastTime with
  | none => false
  | some l => decide (t < l)

/-- The sum `t + timeout`; it is `NaN` when `timeout` is `undefined`. -/
def addTimeout (t : Int) (timeout : Option Int) : Option Int :=
  timeout.map fun x => t + x

/-- The loop `while(!done && --block > 0) done = func();`.
`clock n` is the wall-clock time at which action number `n` of the driver
begins (any function, no monotonicity assumed); `func n` is what call number
`n` of the step function returns. -/
def innerLoop (clock : Nat → Int) (func : Nat → Bool) : Nat → AsyncState → AsyncState
  | 0, s => s
  | fuel + 1, s =>
    if s.done then s
    else if 0 < s.block - 1 then
      innerLoop clock func fuel
        { s with
          block := s.block - 1
          done := func s.calls
          tick := s.tick + 1
          calls := s.calls + 1
          trace := s.trace ++ [.call s.calls (clock s.tick) (func s.calls)] }
    else { s with block := s.block - 1 }

/-- The loop `while(!done && Date.now() < lastTime) { (inner loop); block = blockSize; }`.
It may run forever; `none` means the fuel ran out. -/
def outerLoop (c : AsyncConsts) (clock : Nat → Int) (func : Nat → Bool) :
    Nat → AsyncState → Option AsyncState
  | 0, _ => none
  | fuel + 1, s =>
    if s.done then some s
    else
      let s1 : AsyncState :=
        { s with tick := s.tick + 1, trace := s.trace ++ [.now (clock s.tick)] }
      if beforeDeadline (clock s.tick) s.lastTime then
        let s2 := innerLoop clock func (s1.block.toNat + 1) s1
        outerLoop c clock func fuel { s2 with block := c._bSz }
      else some s1

/-- One run of the inner function `_async` (one slice): the loops, then either
`lastTime = Date.now() + delay + timeout; setTimeout(_async, delay)` or
`callback()`. The flag tells whether the function was scheduled again. -/
def slice (c : AsyncConsts) (clock : Nat → Int) (func : Nat → Bool) (fuel : Nat)
    (s : AsyncState) : Option (AsyncState × Bool) :=
  match outerLoop c clock func fuel s with
  | none => none
  | some s1 =>
    if !s1.done then
      some ({ s1 with
              lastTime := addTimeout (clock s1.tick + c._delay) c._to
              tick := s1.tick + 1
              trace := s1.trace ++ [.now (clock s1.tick), .setTimeout c._delay] }, true)
    else some ({ s1 with trace := s1.trace ++ [.callback] }, false)

/-- The variables `_async(func, callback)` sets up before the first slice:
`block = blockSize`, `done = false`, `lastTime = Date.now() + timeout`. -/
def initState (c : AsyncConsts) (clock : Nat → Int) : AsyncState :=
  { block := c._bSz
    done := false
    lastTime := addTimeout (clock 0) c._to
    tick := 1
    calls := 0
    trace := [.now (clock 0)] }

/-- Up to `n` slices in a row, each started by the timer of the one before.
The flag of the result tells whether a further slice is still scheduled. -/
def runSlices (c : AsyncConsts) (clock : Nat → Int) (func : Nat → Bool) (fuel : Nat) :
    Nat → AsyncState → Option (AsyncState × Bool)
  | 0, s => some (s, true)
  | n + 1, s =>
    match slice c clock func fuel s with
    | none => none
    | some (s1, true) => runSlices c clock func fuel n s1
    | some (s1, false) => some (s1, false)

/-- The method `_async(func, callback)`, followed for `n` slices. -/
def _async (c : AsyncConsts) (clock : Nat → Int) (func : Nat → Bool) (fuel n : Nat) :
    Option (AsyncState × Bool) :=
  runSlices c clock func fuel n (initState c clock)

/-- Number of calls of `func` among some events. -/
def callCount (es : List Event) : Nat :=
  es.countP fun e => match e with
    | .call _ _ _ => true
    | _ => false

/-- Number of calls of the completion callback among some events. -/
def callbackCount (es : List Event) : Nat :=
  es.countP fun e => match e with
    | .callback => true
    | _ => false

/-- Number of clock readings below the deadline `lastTime` among some events. -/
def passCount (lastTime : Option Int) (es : List Event) : Nat :=
  es.countP fun e => match e with
    | .now t => beforeDeadline t lastTime
    | _ => false

/-- The events of one run of the inner `while` loop entered with `done` false and
room for `k` calls: calls of `func` only, at most `k` of them, all returning
`false` except possibly the last; the run is shorter than `k` only when its
last call returned `true`. The flag is the value of `done` afterwards. -/
inductive CallBlock : Nat → Bool → List Event → Prop where
  | full : CallBlock 0 false []
  | last (n : Nat) (t : Int) (k : Nat) : CallBlock (k + 1) true [.call n t true]
  | more (n : Nat) (t : Int) (k : Nat) (d : Bool) (calls : List Event) :
      CallBlock k d calls → CallBlock (k + 1) d (.call n t false :: calls)

/-- The events of the loops of one slice, entered with `done = d0` and left with
`done = d`: blocks of at most `bSz - 1` calls, each block right after a clock
reading below the deadline, ended by `done` becoming true or by a reading that
is not below the deadline. -/
inductive SliceShape (bSz : Int) (lastTime : Option Int) : Bool → Bool → List Event → Prop where
  | finished : SliceShape bSz lastTime true true []
  | expired (t : Int) : beforeDeadline t lastTime = false →
      SliceShape bSz lastTime false false [.now t]
  | block (t : Int) (calls rest : List Event) (d1 d : Bool) :
      beforeDeadline t lastTime = true →
      CallBlock (bSz - 1).toNat d1 calls →
      SliceShape bSz lastTime d1 d rest →
      SliceShape bSz lastTime false d (.now t :: (calls ++ rest))

/-- Constants with a time budget: those of the sources, and `_to` set to 10. -/
def budgetConsts : AsyncConsts := { _bSz := 2 ^ 21, _delay := 8, _to := some 10 }

/-- Constants with a small block size: `_bSz = 3`, `_delay = 8`, `_to = 10`. -/
def smallBlockConsts : AsyncConsts := { _bSz := 3, _delay := 8, _to := some 10 }

/-- A clock that shows 0 at the first three actions and 11 from then on. -/
def lateClock : Nat → Int := fun n => if n < 3 then 0 else 11

/-- A step function that returns `false` on its first call and `true` on its
second. -/
def twoStepFunc : Nat → Bool := fun n => decide (1 ≤ n)

/-- A clock that shows 0 at the first eight actions and 11 from then on. -/
def slowClock : Nat → Int := fun n => if n < 8 then 0 else 11

/-- A step function that returns `true` on its seventh call. -/
def sevenStepFunc : Nat → Bool := fun n => decide (6 ≤ n)


/-! ## JavaScript numbers

A number is an IEEE 754 binary64 value. A finite value is kept as the rational
it denotes, and every arithmetic result is rounded to the nearest binary64
value, ties to even. The two zeros are not told apart: the operations embedded
below (`x * 255`, `x + 0.5`, `i / 255` for an integer `i ≥ 0`, `x | 0`,
`x === 1`, `Math.pow` with a base `i / 255`) give the same result for both. -/

/-- A JavaScript number. -/
inductive JSNum where
  | nan
  | posInf
  | negInf
  | fin (q : ℚ)
deriving DecidableEq, Repr

/-- Rounding of a rational to the nearest integer, ties to the even one. -/
def roundHalfEven (x : ℚ) : Int :=
  if x - ⌊x⌋ < 1 / 2 then ⌊x⌋
  else if 1 / 2 < x - ⌊x⌋ then ⌊x⌋ + 1
  else if ⌊x⌋ % 2 = 0 then ⌊x⌋ else ⌊x⌋ + 1

/-- The exponent of the spacing of the binary64 values around `q`: 53
significant bits, and never finer than `2 ^ -1074`. -/
def ulpExp (q : ℚ) : Int := max (Int.log 2 |q| - 52) (-1074)

/-- The binary64 value of an exact result `q`: round to nearest, ties to even,
overflow to an infinity. -/
def roundDouble (q : ℚ) : JSNum :=
  let r : ℚ := (roundHalfEven (q / 2 ^ ulpExp q) : ℚ) * 2 ^ ulpExp q
  if 2 ^ (1024 : Int) ≤ |r| then (if 0 < q then .posInf else .negInf) else .fin r

/-- The product `a * b` of two numbers. -/
def JSNum.mul : JSNum → JSNum → JSNum
  | .nan, _ => .nan
  | _, .nan => .nan
  | .fin a, .fin b => roundDouble (a * b)
  | .fin a, .posInf => if a = 0 then .nan else if 0 < a then .posInf else .negInf
  | .fin a, .negInf => if a = 0 then .nan else if 0 < a then .negInf else .posInf
  | .posInf, .fin b => if b = 0 then .nan else if 0 < b then .posInf else .negInf
  | .negInf, .fin b => if b = 0 then .nan else if 0 < b then .negInf else .posInf
  | .posInf, .posInf => .posInf
  | .negInf, .negInf => .posInf
  | .posInf, .negInf => .negInf
  | .negInf, .posInf => .negInf

/-- The sum `a + b` of two numbers. -/
def JSNum.add : JSNum → JSNum → JSNum
  | .nan, _ => .nan
  | _, .nan => .nan
  | .fin a, .fin b => roundDouble (a + b)
  | .posInf, .negInf => .nan
  | .negInf, .posInf => .nan
  | .posInf, _ => .posInf
  | _, .posInf => .posInf
  | .negInf, _ => .negInf
  | _, .negInf => .negInf

/-- The expression `x | 0`, that is `ToInt32(x)`: `NaN` and the infinities give
0, a finite value is truncated toward zero and reduced modulo `2 ^ 32`. -/
def JSNum.toInt32 : JSNum → Int
  | .fin q => PsdReader.toInt32 (if 0 ≤ q then ⌊q⌋ else ⌈q⌉)
  | _ => 0

/-- The expression `(x * 255 + 0.5)|0`, common to `floatToComp` and to the loop
body of `getGammaLUT`. -/
def scaleToByte (x : JSNum) : Int :=
  JSNum.toInt32 (JSNum.add (JSNum.mul x (.fin 255)) (.fin (1 / 2)))

/-! ## `floatToComp` (psd.core.js) -/

/-- A `DataView` is a window onto a buffer, like a `Uint8Array`. -/
abbrev DataView := Uint8Array

/-- The 32-bit pattern of four bytes, most significant first. -/
def float32Bits (b0 b1 b2 b3 : Byte) : Nat :=
  b0.val * 2 ^ 24 + b1.val * 2 ^ 16 + b2.val * 2 ^ 8 + b3.val

/-- The IEEE 754 binary32 value of a 32-bit pattern: sign bit, 8 exponent bits,
23 fraction bits. -/
def decodeBits (bits : Nat) : JSNum :=
  let expo : Nat := bits / 2 ^ 23 % 256
  let mant : Nat := bits % 2 ^ 23
  if expo = 255 then
    if mant = 0 then (if 2 ^ 31 ≤ bits then .negInf else .posInf) else .nan
  else
    let mag : ℚ :=
      if expo = 0 then (mant : ℚ) * 2 ^ (-149 : Int)
      else ((2 ^ 23 + mant : Nat) : ℚ) * 2 ^ ((expo : Int) - 150)
    .fin (if 2 ^ 31 ≤ bits then -mag else mag)

/-- The IEEE 754 binary32 value of four bytes, most significant first. -/
def decodeFloat32 (b0 b1 b2 b3 : Byte) : JSNum :=
  decodeBits (float32Bits b0 b1 b2 b3)

/-- The method `DataView.prototype.getFloat32(pos)` (big-endian): a `RangeError`
when the four bytes are not inside the view. -/
def DataView.getFloat32 (v : DataView) (pos : Nat) : Except String JSNum :=
  if pos + 4 ≤ v.length then
    match v.get? pos, v.get? (pos + 1), v.get? (pos + 2), v.get? (pos + 3) with
    | some b0, some b1, some b2, some b3 => .ok (decodeFloat32 b0 b1 b2 b3)
    | _, _, _, _ => .error "RangeError"
  else .error "RangeError"

/-- The method `floatToComp`:
`return (channel.getFloat32(pos) * 255 + 0.5)|0`. -/
def floatToComp (channel : DataView) (pos : Nat) : Except String Int :=
  match channel.getFloat32 pos with
  | .error e => .error e
  | .ok v => .ok (scaleToByte v)

/-- A channel holding the single sample 2.0 (`40 00 00 00`). -/
def channelTwo : DataView := Uint8Array.ofList [64, 0, 0, 0]

/-- A channel holding the single sample -1.0 (`BF 80 00 00`). -/
def channelMinusOne : DataView := Uint8Array.ofList [191, 128, 0, 0]

/-- A channel holding the single sample 0.5 (`3F 00 00 00`). -/
def channelHalf : DataView := Uint8Array.ofList [63, 0, 0, 0]

/-! ## `getGammaLUT` (psd.core.js) -/

/-- Whether a rational is an odd integer. -/
def isOddInteger (y : ℚ) : Bool := decide (y.den = 1 ∧ y.num % 2 = 1)

/-- The function `Math.pow(base, exponent)` as ECMAScript defines it, case by
case. Where the standard asks for an implementation-approximated value of the
real power (finite non-zero base, finite non-zero exponent, the power being
real), the result is `approx base exponent`, a parameter. A zero base is `+0`,
the only zero a quotient `i / 255` can be. -/
def Math.pow (approx : ℚ → ℚ → JSNum) (base exponent : JSNum) : JSNum :=
  match exponent with
  | .nan => .nan
  | .fin y =>
    if y = 0 then .fin 1
    else
      match base with
      | .nan => .nan
      | .posInf => if 0 < y then .posInf else .fin 0
      | .negInf =>
        if 0 < y then (if isOddInteger y then .negInf else .posInf) else .fin 0
      | .fin x =>
        if x = 0 then (if 0 < y then .fin 0 else .posInf)
        else if x < 0 ∧ y.den ≠ 1 then .nan
        else approx x y
  | .posInf =>
    match base with
    | .nan => .nan
    | .posInf => .posInf
    | .negInf => .posInf
    | .fin x => if 1 < |x| then .posInf else if |x| = 1 then .nan else .fin 0
  | .negInf =>
    match base with
    | .nan => .nan
    | .posInf => .fin 0
    | .negInf => .fin 0
    | .fin x => if 1 < |x| then .fin 0 else if |x| = 1 then .nan else .posInf

/-- The store of an integer into a `Uint8ClampedArray` element. -/
def toUint8Clamp (n : Int) : Nat :=
  if n ≤ 0 then 0 else if 255 ≤ n then 255 else n.toNat

/-- The value `(Math.pow(i / 255, gamma) * 255 + 0.5)|0` of the loop body. -/
def gammaEntry (approx : ℚ → ℚ → JSNum) (gamma : JSNum) (i : Nat) : Int :=
  scaleToByte (Math.pow approx (roundDouble ((i : ℚ) / 255)) gamma)

/-- The method `getGammaLUT`:
`var lut = new Uint8ClampedArray(256), i = 0;`
`if (gamma === 1) { while(i < 256) lut[i] = i++; }`
`else { for(; i < 256; i++) lut[i] = (Math.pow(i / 255, gamma) * 255 + 0.5)|0; }`.
A typed array of 256 entries is a list of 256 numbers. -/
def getGammaLUT (approx : ℚ → ℚ → JSNum) (gamma : JSNum) : List Nat :=
  let lut : List Nat := List.replicate 256 0
  if gamma = .fin 1 then
    (List.range 256).foldl (fun lut i => lut.set i (toUint8Clamp (i : Int))) lut
  else
    (List.range 256).foldl
      (fun lut i => lut.set i (toUint8Clamp (gammaEntry approx gamma i))) lut

/-- An approximation of the real power that is exact at base 1 (and crude
elsewhere), to instantiate the parameter of `Math.pow`. -/
def crudePow : ℚ → ℚ → JSNum := fun x _ => .fin (if x = 1 then 1 else 0)

/-- A condition on the host's `Math.pow` at the exponent `y`: on bases in (0, 1]
its value is finite, lies in [0, 1] and does not decrease when the base grows,
as is the case of the real power for `y > 0`. -/
def MonotoneOnUnit (approx : ℚ → ℚ → JSNum) (y : ℚ) : Prop :=
  ∀ x x' : ℚ, 0 < x → x ≤ x' → x' ≤ 1 →
    ∃ p p' : ℚ, approx x y = .fin p ∧ approx x' y = .fin p' ∧ 0 ≤ p ∧ p ≤ p' ∧ p' ≤ 1

/-- A host power that decreases in its base: 1 for bases below 1/2 and 0 for
the others. -/
def adversePow : ℚ → ℚ → JSNum := fun x _ => .fin (if x < 1 / 2 then 1 else 0)

/-! # Theorems -/

set_option maxRecDepth 100000

/-! ## Typed arrays and integer operators -/

theorem Uint8Array.get?_of_lt (v : Uint8Array) (i : Nat)
    (hwf : v.byteOffset + v.length ≤ v.buffer.length) (hi : i < v.length) :
    ∃ b : Byte, v.get? i = some b ∧ v.buffer[v.byteOffset + i]? = some b := by
  have h : v.byteOffset + i < v.buffer.length := by omega
  refine ⟨v.buffer[v.byteOffset + i], ?_, ?_⟩
  · simp [Uint8Array.get?, hi, h]
  · simp [h]

theorem toInt32_of_lt (n : Int) (h0 : 0 ≤ n) (h1 : n < 2 ^ 31) : toInt32 n = n := by
  unfold toInt32
  have : n % 2 ^ 32 = n := Int.emod_eq_of_lt h0 (by omega)
  simp only [this]
  split <;> omega

theorem jsAnd_low24 (n : Nat) (hn : n < 2 ^ 32) :
    jsAnd (n : Int) 0xffffff = ((n % 2 ^ 24 : Nat) : Int) := by
  unfold jsAnd
  have h1 : ((n : Int) % 2 ^ 32).toNat = n := by
    have : (n : Int) % 2 ^ 32 = n := Int.emod_eq_of_lt (by omega) (by exact_mod_cast hn)
    rw [this]; simp
  have h2 : ((0xffffff : Int) % 2 ^ 32).toNat = 2 ^ 24 - 1 := by decide
  rw [h1, h2, Nat.and_pow_two_sub_one_eq_mod]
  apply toInt32_of_lt
  · omega
  · have : n % 2 ^ 24 < 2 ^ 24 := Nat.mod_lt _ (by norm_num)
    omega

/-! ## C1: `indexToInt` -/

/-- C1. For a colour table of at least 768 bytes and an index in [0,255],
`indexToInt` reads `r = tbl[index]`, `g = tbl[index+256]`, `b = tbl[index+512]`
and returns `0xFF000000 + b*65536 + g*256 + r` without `alpha` and
`b*65536 + g*256 + r` with it. The first value lies in
[0xFF000000, 0xFFFFFFFF], its bytes from least to most significant are
`r, g, b, 255`, and the second value is the first with the top byte cleared. -/
theorem indexToInt_spec (tbl : Uint8Array) (index : Nat)
    (hwf : tbl.byteOffset + tbl.length ≤ tbl.buffer.length)
    (hlen : 768 ≤ tbl.length) (hidx : index ≤ 255) :
    ∃ r g b : Byte,
      tbl.get? index = some r ∧ tbl.get? (index + 256) = some g ∧
      tbl.get? (index + 512) = some b ∧
      indexToInt tbl index false
        = some ((0xFF000000 + b.val * 65536 + g.val * 256 + r.val : Nat) : Int) ∧
      indexToInt tbl index true
        = some ((b.val * 65536 + g.val * 256 + r.val : Nat) : Int) ∧
      0xFF000000 ≤ 0xFF000000 + b.val * 65536 + g.val * 256 + r.val ∧
      0xFF000000 + b.val * 65536 + g.val * 256 + r.val ≤ 0xFFFFFFFF ∧
      (0xFF000000 + b.val * 65536 + g.val * 256 + r.val) % 256 = r.val ∧
      (0xFF000000 + b.val * 65536 + g.val * 256 + r.val) / 256 % 256 = g.val ∧
      (0xFF000000 + b.val * 65536 + g.val * 256 + r.val) / 65536 % 256 = b.val ∧
      (0xFF000000 + b.val * 65536 + g.val * 256 + r.val) / 16777216 = 255 ∧
      b.val * 65536 + g.val * 256 + r.val
        = (0xFF000000 + b.val * 65536 + g.val * 256 + r.val) % 16777216 := by
  obtain ⟨r, hr, -⟩ := tbl.get?_of_lt index hwf (by omega)
  obtain ⟨g, hg, -⟩ := tbl.get?_of_lt (index + 256) hwf (by omega)
  obtain ⟨b, hb, -⟩ := tbl.get?_of_lt (index + 512) hwf (by omega)
  have hr' := r.isLt
  have hg' := g.isLt
  have hb' := b.isLt
  have sb : shl (some b) 16 = (b.val : Int) * 65536 := by
    unfold shl
    simp only []
    rw [toInt32_of_lt]
    all_goals norm_num
    all_goals omega
  have sg : shl (some g) 8 = (g.val : Int) * 256 := by
    unfold shl
    simp only []
    rw [toInt32_of_lt]
    all_goals norm_num
    all_goals omega
  refine ⟨r, g, b, hr, hg, hb, ?_, ?_, ?_, ?_, ?_, ?_, ?_, ?_, ?_⟩
  · simp only [indexToInt, hr, hg, hb, sb, sg, Option.map_some']
    simp
  · simp only [indexToInt, hr, hg, hb, sb, sg, Option.map_some']
    simp only [if_true]
    have e : (0xff000000 + (b.val : Int) * 65536 + (g.val : Int) * 256 + (r.val : Int))
        = ((0xff000000 + b.val * 65536 + g.val * 256 + r.val : Nat) : Int) := by
      push_cast; ring
    rw [e, jsAnd_low24 _ (by omega)]
    congr 2
    omega
  all_goals omega

/-- C1, the example of the specification: with `tbl[i] = i`,
`tbl[i+256] = 255-i`, `tbl[i+512] = 2i mod 256` and index 10 the components are
R=10, G=245, B=20, A=255, packed as `0xFF14F50A`. -/
theorem indexToInt_witness :
    (exampleTable.byteOffset + exampleTable.length ≤ exampleTable.buffer.length ∧
      768 ≤ exampleTable.length ∧ 10 ≤ 255) ∧
    (exampleTable.get? 10 = some 10 ∧ exampleTable.get? (10 + 256) = some 245 ∧
      exampleTable.get? (10 + 512) = some 20 ∧
      indexToInt exampleTable 10 false = some 0xFF14F50A ∧
      indexToInt exampleTable 10 true = some 0x14F50A) ∧
    ∃ r g b : Byte,
      exampleTable.get? 10 = some r ∧ exampleTable.get? (10 + 256) = some g ∧
      exampleTable.get? (10 + 512) = some b ∧
      indexToInt exampleTable 10 false
        = some ((0xFF000000 + b.val * 65536 + g.val * 256 + r.val : Nat) : Int) ∧
      indexToInt exampleTable 10 true
        = some ((b.val * 65536 + g.val * 256 + r.val : Nat) : Int) ∧
      0xFF000000 ≤ 0xFF000000 + b.val * 65536 + g.val * 256 + r.val ∧
      0xFF000000 + b.val * 65536 + g.val * 256 + r.val ≤ 0xFFFFFFFF ∧
      (0xFF000000 + b.val * 65536 + g.val * 256 + r.val) % 256 = r.val ∧
      (0xFF000000 + b.val * 65536 + g.val * 256 + r.val) / 256 % 256 = g.val ∧
      (0xFF000000 + b.val * 65536 + g.val * 256 + r.val) / 65536 % 256 = b.val ∧
      (0xFF000000 + b.val * 65536 + g.val * 256 + r.val) / 16777216 = 255 ∧
      b.val * 65536 + g.val * 256 + r.val
        = (0xFF000000 + b.val * 65536 + g.val * 256 + r.val) % 16777216 :=
  ⟨by decide, by decide, indexToInt_spec exampleTable 10 (by decide) (by decide) (by decide)⟩

/-! ## C2: `_raw` -/

theorem rawLoop_ok (buffer : ArrayBuffer) (len : Nat) :
    ∀ (todo pos : Nat) (bitmaps : List Uint8Array),
      pos + todo * len ≤ buffer.length →
      rawLoop buffer len todo pos bitmaps = .ok (bitmaps ++ rawPlanes buffer pos len todo) := by
  intro todo
  induction todo with
  | zero => intro pos bitmaps _; simp [rawLoop, rawPlanes]
  | succ n ih =>
    intro pos bitmaps h
    have h1 : pos + len ≤ buffer.length := by
      have : pos + (n * len + len) ≤ buffer.length := by
        rw [← Nat.succ_mul]; exact h
      omega
    have h2 : pos + len + n * len ≤ buffer.length := by
      have : pos + (n * len + len) ≤ buffer.length := by
        rw [← Nat.succ_mul]; exact h
      omega
    simp only [rawLoop, Uint8Array.create, h1, if_true]
    rw [ih (pos + len) _ h2]
    congr 1
    simp only [rawPlanes, List.append_assoc, List.singleton_append, List.range_succ_eq_map,
      List.map_cons, List.map_map]
    congr 2
    · simp
    · apply List.map_congr_left
      intro i _
      simp only [Function.comp, Nat.succ_eq_add_one, Uint8Array.mk.injEq, true_and, and_true]
      rw [Nat.add_mul]
      omega

theorem rawPlanes_length (buffer : ArrayBuffer) (pos len n : Nat) :
    (rawPlanes buffer pos len n).length = n := by
  simp [rawPlanes]

theorem rawPlanes_get (buffer : ArrayBuffer) (pos len n i : Nat) (hi : i < n) :
    (rawPlanes buffer pos len n)[i]?
      = some { buffer := buffer, byteOffset := pos + i * len, length := len } := by
  simp [rawPlanes, List.getElem?_map, List.getElem?_range hi]

/-- C2. When `pos + n*L` does not exceed the buffer length, `_raw` appends
exactly `n = info.channels` planes to `bitmaps` and calls the callback exactly
once. Plane `i` is a window of the source buffer itself, of length
`L = info.channelSize`, at offset `pos + i*L`, so its byte `j` is source byte
`pos + i*L + j`; consecutive planes are contiguous and earlier planes end
before later ones begin. -/
theorem raw_spec (buffer : ArrayBuffer) (pos : Nat) (info : RawInfo) (s : RawState)
    (hfit : pos + info.channels * info.channelSize ≤ buffer.length) :
    ∃ planes : List Uint8Array,
      _raw buffer pos info s
        = .ok { bitmaps := s.bitmaps ++ planes, callbackCalls := s.callbackCalls + 1 } ∧
      planes.length = info.channels ∧
      (∀ i, i < info.channels → ∃ p : Uint8Array,
        planes[i]? = some p ∧ p.buffer = buffer ∧
        p.byteOffset = pos + i * info.channelSize ∧ p.length = info.channelSize ∧
        (∀ j, j < info.channelSize → ∃ x : Byte,
          p.get? j = some x ∧ buffer[pos + i * info.channelSize + j]? = some x)) ∧
      (∀ i k, i < k → k < info.channels →
        pos + i * info.channelSize + info.channelSize ≤ pos + k * info.channelSize) := by
  refine ⟨rawPlanes buffer pos info.channelSize info.channels, ?_, ?_, ?_, ?_⟩
  · simp only [_raw, rawLoop_ok buffer info.channelSize info.channels pos s.bitmaps hfit]
  · exact rawPlanes_length _ _ _ _
  · intro i hi
    refine ⟨_, rawPlanes_get buffer pos info.channelSize info.channels i hi, rfl, rfl, rfl, ?_⟩
    intro j hj
    have hle : (i + 1) * info.channelSize ≤ info.channels * info.channelSize :=
      Nat.mul_le_mul_right _ hi
    rw [Nat.add_mul, Nat.one_mul] at hle
    have hlt : pos + i * info.channelSize + j < buffer.length := by omega
    refine ⟨buffer[pos + i * info.channelSize + j], ?_, ?_⟩
    · simp [Uint8Array.get?, hj, hlt]
    · simp [hlt]
  · intro i k hik _
    have hle : (i + 1) * info.channelSize ≤ k * info.channelSize :=
      Nat.mul_le_mul_right _ hik
    rw [Nat.add_mul, Nat.one_mul] at hle
    omega

/-- C2, the scenario of the specification: the raw data
`10,20,30,40,1,2,3,4,5,6,7,8` with 3 channels of 4 bytes gives the planes
R=[10,20,30,40], G=[1,2,3,4], B=[5,6,7,8] and one callback call. -/
theorem raw_witness :
    (0 + 3 * 4 ≤ rgbScenario.length) ∧
    (∃ st : RawState,
      _raw rgbScenario 0 { channels := 3, channelSize := 4 } { bitmaps := [], callbackCalls := 0 }
        = .ok st ∧
      st.bitmaps.map Uint8Array.toList = [[10, 20, 30, 40], [1, 2, 3, 4], [5, 6, 7, 8]] ∧
      st.callbackCalls = 1) ∧
    ∃ planes : List Uint8Array,
      _raw rgbScenario 0 { channels := 3, channelSize := 4 } { bitmaps := [], callbackCalls := 0 }
        = .ok { bitmaps := [] ++ planes, callbackCalls := 0 + 1 } ∧
      planes.length = 3 ∧
      (∀ i, i < 3 → ∃ p : Uint8Array,
        planes[i]? = some p ∧ p.buffer = rgbScenario ∧
        p.byteOffset = 0 + i * 4 ∧ p.length = 4 ∧
        (∀ j, j < 4 → ∃ x : Byte,
          p.get? j = some x ∧ rgbScenario[0 + i * 4 + j]? = some x)) ∧
      (∀ i k, i < k → k < 3 → 0 + i * 4 + 4 ≤ 0 + k * 4) :=
  ⟨by decide, ⟨_, rfl, by decide, rfl⟩,
    raw_spec rgbScenario 0 { channels := 3, channelSize := 4 }
      { bitmaps := [], callbackCalls := 0 } (by decide)⟩

/-! ## C4: `getIndexTable` -/

/-- What `getIndexTable` returns for a colour-mode-data chunk lying inside the
buffer: `null` when the chunk has length 0 and otherwise a view of exactly that
chunk (same buffer, offset `ci.pos`, length `ci.length`, byte `j` equal to
source byte `ci.pos + j`), which has 768 bytes exactly when the chunk has. -/
theorem getIndexTable_view (buffer : ArrayBuffer) (ci : Chunk)
    (hfit : ci.pos + ci.length ≤ buffer.length) :
    (ci.length = 0 → getIndexTable buffer ci = .ok none) ∧
    (ci.length ≠ 0 → ∃ t : Uint8Array,
      getIndexTable buffer ci = .ok (some t) ∧
      t.buffer = buffer ∧ t.byteOffset = ci.pos ∧ t.length = ci.length ∧
      t.toList = (buffer.drop ci.pos).take ci.length ∧
      t.toList.length = ci.length ∧
      (∀ j, j < ci.length → ∃ x : Byte,
        t.get? j = some x ∧ buffer[ci.pos + j]? = some x) ∧
      (t.length = 768 ↔ ci.length = 768)) := by
  constructor
  · intro h0
    simp [getIndexTable, h0]
  · intro hne
    refine ⟨{ buffer := buffer, byteOffset := ci.pos, length := ci.length },
      ?_, rfl, rfl, rfl, rfl, ?_, ?_, Iff.rfl⟩
    · simp [getIndexTable, hne, Uint8Array.create, hfit]
    · simp only [Uint8Array.toList, List.length_take, List.length_drop]
      omega
    · intro j hj
      have hlt : ci.pos + j < buffer.length := by omega
      refine ⟨buffer[ci.pos + j], ?_, ?_⟩
      · simp [Uint8Array.get?, hj, hlt]
      · simp [hlt]

/-- C4, the code at the failing input. For the duotone document
`duotoneBuffer`, whose colour-mode-data chunk is at position 30 and has 524
bytes, `getIndexTable` returns neither `null` nor a table of 768 bytes: it
returns a view of 524 bytes, the duotone data, starting with source bytes 30,
31, 32. -/
theorem getIndexTable_duotone :
    duotoneBuffer.length = 565 ∧
    duotoneBuffer[24]? = some 0 ∧ duotoneBuffer[25]? = some 8 ∧
    (duotoneBuffer.drop 26).take 4 = [0, 0, 2, 12] ∧
    ∃ t : Uint8Array,
      getIndexTable duotoneBuffer { pos := 30, length := 524 } = .ok (some t) ∧
      t.buffer = duotoneBuffer ∧ t.byteOffset = 30 ∧
      t.length = 524 ∧ t.length ≠ 768 ∧
      t.get? 0 = some 0 ∧ t.get? 1 = some 1 ∧ t.get? 523 = some 11 :=
  ⟨by decide, by decide, by decide, by decide,
    ⟨_, rfl, rfl, rfl, rfl, by decide, by decide, by decide, by decide⟩⟩

/-! ## C9: the data-source check of the constructor -/

theorem string_length_ne_zero (u : String) (hu : u ≠ "") : u.length ≠ 0 := by
  intro h
  apply hu
  cases u with
  | mk data =>
    simp only [String.length, List.length_eq_zero] at h
    subst h
    rfl

/-- C9. With `url` absent or a string and `buffer` absent or an `ArrayBuffer`,
the constructor leaves through the report of "Buffer nor URL specified" exactly
when `url` is absent or empty and `buffer` is absent, through the report of
"Both URL and buffer specified" exactly when `url` is non-empty and `buffer` is
present; a report is all it does then (no fetch, no parser); and when exactly
one of a non-empty `url` and a `buffer` is given it reports no data-source
error and enters the block that starts the loader or the parser. -/
theorem construct_source_check (o : Options) (h : Host) :
    (construct o h = .sourceError (_err o.onError "Buffer nor URL specified" "core")
      ↔ (o.url = none ∨ o.url = some "") ∧ o.buffer = none) ∧
    (construct o h = .sourceError (_err o.onError "Both URL and buffer specified" "core")
      ↔ (∃ u, o.url = some u ∧ u ≠ "") ∧ o.buffer ≠ none) ∧
    (∀ report, construct o h = .sourceError report →
      (report = _err o.onError "Buffer nor URL specified" "core" ∨
        report = _err o.onError "Both URL and buffer specified" "core") ∧
      (∀ u, report ≠ .fetch u) ∧ report ≠ .parser ∧
      (report = .scheduleError "Buffer nor URL specified" "core" ∨
        report = .throwTypeError "Buffer nor URL specified" ∨
        report = .scheduleError "Both URL and buffer specified" "core" ∨
        report = .throwTypeError "Both URL and buffer specified")) ∧
    (((∃ u, o.url = some u ∧ u ≠ "") ∧ o.buffer = none) →
      construct o h = .started (tryBlock o h (o.url.getD "")) ∧
      ∃ u rest, u ≠ "" ∧ o.url = some u ∧ tryBlock o h (o.url.getD "") = .fetch u :: rest) ∧
    (((o.url = none ∨ o.url = some "") ∧ o.buffer ≠ none) →
      construct o h = .started (tryBlock o h "") ∧
      ∀ u, Effect.fetch u ∉ tryBlock o h "") := by
  rcases o with ⟨url, buffer, onError, onReady, passive⟩
  rcases h with ⟨hf, hr, hp⟩
  have hlen : ∀ u : String, u ≠ "" → u.length ≠ 0 := string_length_ne_zero
  rcases url with _ | u <;> rcases buffer with _ | b
  · cases onError <;> simp [construct, _err]
  · cases onError <;> simp [construct, _err, tryBlock] <;>
      (cases onReady <;> cases passive <;> cases hr <;> cases hp <;> simp)
  · by_cases hu : u = ""
    · subst hu
      cases onError <;> simp [construct, _err]
    · cases onError <;> simp [construct, _err, tryBlock, hu, hlen u hu]
  · by_cases hu : u = ""
    · subst hu
      cases onError <;> simp [construct, _err, tryBlock] <;>
        (cases onReady <;> cases passive <;> cases hr <;> cases hp <;> simp)
    · cases onError <;> simp [construct, _err, hu, hlen u hu]

/-- C9 at two concrete option objects: with neither source the constructor
throws "Buffer nor URL specified", with both it schedules the report of
"Both URL and buffer specified". -/
theorem construct_source_check_witness :
    construct noSourceOptions quietHost
      = .sourceError (.throwTypeError "Buffer nor URL specified") ∧
    construct bothSourcesOptions quietHost
      = .sourceError (.scheduleError "Both URL and buffer specified" "core") :=
  ⟨(construct_source_check noSourceOptions quietHost).1.mpr ⟨Or.inl rfl, rfl⟩,
    (construct_source_check bothSourcesOptions quietHost).2.1.mpr
      ⟨⟨"a.psd", rfl, by decide⟩, by simp [bothSourcesOptions]⟩⟩

/-! ## C3: `_async` with the constants of the sources -/

theorem callCount_append (a b : List Event) :
    callCount (a ++ b) = callCount a + callCount b := by
  simp [callCount, List.countP_append]

theorem callbackCount_append (a b : List Event) :
    callbackCount (a ++ b) = callbackCount a + callbackCount b := by
  simp [callbackCount, List.countP_append]

theorem passCount_append (l : Option Int) (a b : List Event) :
    passCount l (a ++ b) = passCount l a + passCount l b := by
  simp [passCount, List.countP_append]

theorem slice_of_nan (c : AsyncConsts) (clock : Nat → Int) (func : Nat → Bool) (fuel : Nat)
    (s : AsyncState) (hto : c._to = none) (hd : s.done = false) (hl : s.lastTime = none) :
    slice c clock func (fuel + 1) s
      = some ({ s with
                lastTime := none
                tick := s.tick + 1 + 1
                trace := (s.trace ++ [.now (clock s.tick)])
                  ++ [.now (clock (s.tick + 1)), .setTimeout c._delay] }, true) := by
  simp [slice, outerLoop, hd, hl, beforeDeadline, addTimeout, hto]

theorem runSlices_of_nan (c : AsyncConsts) (clock : Nat → Int) (func : Nat → Bool)
    (fuel : Nat) (hto : c._to = none) :
    ∀ (n : Nat) (s : AsyncState), s.done = false → s.lastTime = none →
      callCount s.trace = 0 → callbackCount s.trace = 0 →
      ∃ s1 : AsyncState, runSlices c clock func (fuel + 1) n s = some (s1, true) ∧
        s1.done = false ∧ s1.calls = s.calls ∧
        callCount s1.trace = 0 ∧ callbackCount s1.trace = 0 := by
  intro n
  induction n with
  | zero =>
    intro s hd _ h1 h2
    exact ⟨s, rfl, hd, rfl, h1, h2⟩
  | succ n ih =>
    intro s hd hl h1 h2
    simp only [runSlices, slice_of_nan c clock func fuel s hto hd hl]
    apply ih
    · exact hd
    · rfl
    · simp only [callCount_append, h1]
      simp [callCount]
    · simp only [callbackCount_append, h2]
      simp [callbackCount]

/-- C3, the code at the failing input. With the scheduler constants as the
sources define them (`_bSz = 1<<21`, `_delay = 8`, `_to` never assigned), for
every clock, every step function (in particular one that returns `true` on its
first call) and every number `n` of slices, `_async` has after `n` slices
called `func` zero times and the callback zero times, `done` is still false
and a further slice is scheduled. -/
theorem async_source_never_calls (clock : Nat → Int) (func : Nat → Bool) (fuel n : Nat) :
    ∃ s : AsyncState,
      _async sourceConsts clock func (fuel + 1) n = some (s, true) ∧
      s.done = false ∧ s.calls = 0 ∧
      callCount s.trace = 0 ∧ callbackCount s.trace = 0 := by
  have h := runSlices_of_nan sourceConsts clock func fuel rfl n (initState sourceConsts clock)
    rfl rfl (by simp [initState, callCount]) (by simp [initState, callbackCount])
  obtain ⟨s1, h1, h2, h3, h4, h5⟩ := h
  exact ⟨s1, h1, h2, by simpa [initState] using h3, h4, h5⟩

/-! ## C10: the shape of a slice -/

theorem innerLoop_of_done (clock : Nat → Int) (func : Nat → Bool) (fuel : Nat)
    (s : AsyncState) (hd : s.done = true) : innerLoop clock func fuel s = s := by
  cases fuel with
  | zero => rfl
  | succ f => simp [innerLoop, hd]

theorem innerLoop_block (clock : Nat → Int) (func : Nat → Bool) :
    ∀ (fuel : Nat) (s : AsyncState), s.done = false → (s.block - 1).toNat + 1 ≤ fuel →
      ∃ calls : List Event,
        (innerLoop clock func fuel s).trace = s.trace ++ calls ∧
        CallBlock (s.block - 1).toNat (innerLoop clock func fuel s).done calls ∧
        (innerLoop clock func fuel s).lastTime = s.lastTime := by
  intro fuel
  induction fuel with
  | zero => intro s _ h; omega
  | succ f ih =>
    intro s hd hf
    by_cases hb : 0 < s.block - 1
    · obtain ⟨k, hk⟩ : ∃ k, (s.block - 1).toNat = k + 1 := ⟨(s.block - 1).toNat - 1, by omega⟩
      cases hr : func s.calls with
      | true =>
        refine ⟨[.call s.calls (clock s.tick) true], ?_, ?_, ?_⟩
        · simp only [innerLoop, hd, hb, hr, if_true, Bool.false_eq_true, if_false]
          rw [innerLoop_of_done _ _ _ _ rfl]
        · simp only [innerLoop, hd, hb, hr, if_true, Bool.false_eq_true, if_false]
          rw [innerLoop_of_done _ _ _ _ rfl, hk]
          exact CallBlock.last _ _ _
        · simp only [innerLoop, hd, hb, hr, if_true, Bool.false_eq_true, if_false]
          rw [innerLoop_of_done _ _ _ _ rfl]
      | false =>
        have hstep := ih
          { s with
            block := s.block - 1
            done := false
            tick := s.tick + 1
            calls := s.calls + 1
            trace := s.trace ++ [.call s.calls (clock s.tick) false] } rfl
          (by simp only; omega)
        obtain ⟨calls, h1, h2, h3⟩ := hstep
        refine ⟨.call s.calls (clock s.tick) false :: calls, ?_, ?_, ?_⟩
        · simp only [innerLoop, hd, hb, hr, if_true, Bool.false_eq_true, if_false]
          rw [h1]
          simp
        · simp only [innerLoop, hd, hb, hr, if_true, Bool.false_eq_true, if_false]
          rw [hk]
          have hk2 : (s.block - 1 - 1).toNat = k := by omega
          simp only [hk2] at h2
          exact CallBlock.more _ _ _ _ _ h2
        · simp only [innerLoop, hd, hb, hr, if_true, Bool.false_eq_true, if_false]
          rw [h3]
    · have hz : (s.block - 1).toNat = 0 := by omega
      refine ⟨[], ?_, ?_, ?_⟩
      · simp [innerLoop, hd, hb]
      · simp only [innerLoop, hd, hb, if_false, Bool.false_eq_true]
        rw [hz]
        exact CallBlock.full
      · simp [innerLoop, hd, hb]

theorem outerLoop_shape (c : AsyncConsts) (clock : Nat → Int) (func : Nat → Bool) :
    ∀ (fuel : Nat) (s s1 : AsyncState), s.block = c._bSz →
      outerLoop c clock func fuel s = some s1 →
      ∃ seg : List Event,
        s1.trace = s.trace ++ seg ∧
        SliceShape c._bSz s.lastTime s.done s1.done seg ∧
        s1.block = c._bSz ∧ s1.lastTime = s.lastTime := by
  intro fuel
  induction fuel with
  | zero => intro s s1 _ h; simp [outerLoop] at h
  | succ f ih =>
    intro s s1 hblk h
    cases hd : s.done with
    | true =>
      simp only [outerLoop, hd, if_true, Option.some.injEq] at h
      subst h
      exact ⟨[], by simp, by rw [hd]; exact SliceShape.finished, hblk, rfl⟩
    | false =>
      simp only [outerLoop, hd, Bool.false_eq_true, if_false] at h
      cases hp : beforeDeadline (clock s.tick) s.lastTime with
      | false =>
        simp only [hp, Bool.false_eq_true, if_false, Option.some.injEq] at h
        subst h
        exact ⟨[.now (clock s.tick)], rfl, SliceShape.expired _ hp, hblk, rfl⟩
      | true =>
        simp only [hp, if_true] at h
        obtain ⟨calls, h1, h2, h3⟩ := innerLoop_block clock func (s.block.toNat + 1)
          { s with tick := s.tick + 1, trace := s.trace ++ [.now (clock s.tick)] } hd
          (by simp only; omega)
        obtain ⟨rest, r1, r2, r3, r4⟩ := ih _ s1 rfl h
        simp only [hd] at h1 h2 h3 r1 r2 r4
        refine ⟨.now (clock s.tick) :: (calls ++ rest), ?_, ?_, r3, ?_⟩
        · rw [r1, h1]
          simp
        · rw [h3] at r2
          rw [show (s.block - 1).toNat = (c._bSz - 1).toNat from by rw [hblk]] at h2
          exact SliceShape.block _ _ _ _ _ hp h2 r2
        · rw [r4, h3]

theorem callBlock_counts (l : Option Int) :
    ∀ (k : Nat) (d : Bool) (calls : List Event), CallBlock k d calls →
      callCount calls ≤ k ∧ passCount l calls = 0 := by
  intro k d calls h
  induction h with
  | full => simp [callCount, passCount]
  | last n t k => simp [callCount, passCount]
  | more n t k d calls _ ih =>
    obtain ⟨h1, h2⟩ := ih
    constructor
    · have : callCount (Event.call n t false :: calls) = callCount calls + 1 := by
        simp [callCount]
      omega
    · have : passCount l (Event.call n t false :: calls) = passCount l calls := by
        simp [passCount]
      omega

theorem sliceShape_counts (bSz : Int) (l : Option Int) :
    ∀ (d0 d : Bool) (seg : List Event), SliceShape bSz l d0 d seg →
      callCount seg ≤ (bSz - 1).toNat * passCount l seg := by
  intro d0 d seg h
  induction h with
  | finished => simp [callCount]
  | expired t _ => simp [callCount]
  | block t calls rest d1 d hp hc _ ih =>
    obtain ⟨c1, c2⟩ := callBlock_counts l _ _ _ hc
    have e1 : callCount (Event.now t :: (calls ++ rest)) = callCount calls + callCount rest := by
      rw [← callCount_append]
      simp [callCount]
    have e2 : passCount l (Event.now t :: (calls ++ rest)) = 1 + passCount l rest := by
      have : passCount l (Event.now t :: (calls ++ rest)) = 1 + passCount l (calls ++ rest) := by
        simp [passCount, hp, Nat.add_comm]
      rw [this, passCount_append, c2]
      simp
    rw [e1, e2, Nat.mul_add, Nat.mul_one]
    omega

theorem sliceShape_end (bSz : Int) (l : Option Int) :
    ∀ (d0 d : Bool) (seg : List Event), SliceShape bSz l d0 d seg →
      d = true ∨ ∃ (a : List Event) (t : Int), seg = a ++ [.now t] ∧ beforeDeadline t l = false := by
  intro d0 d seg h
  induction h with
  | finished => exact Or.inl rfl
  | expired t ht => exact Or.inr ⟨[], t, rfl, ht⟩
  | block t calls rest d1 d _ _ _ ih =>
    rcases ih with h | ⟨a, t1, h1, h2⟩
    · exact Or.inl h
    · refine Or.inr ⟨.now t :: (calls ++ a), t1, ?_, h2⟩
      rw [h1]
      simp

theorem slice_block (c : AsyncConsts) (clock : Nat → Int) (func : Nat → Bool) (fuel : Nat)
    (s0 s : AsyncState) (flag : Bool) (h0 : s0.block = c._bSz)
    (h : slice c clock func fuel s0 = some (s, flag)) :
    s.block = c._bSz ∧ (flag = true → s.done = false) := by
  unfold slice at h
  cases ho : outerLoop c clock func fuel s0 with
  | none => simp [ho] at h
  | some s1 =>
    obtain ⟨_, _, _, hb, _⟩ := outerLoop_shape c clock func fuel s0 s1 h0 ho
    simp only [ho] at h
    cases hd : s1.done with
    | true =>
      simp only [hd, Bool.not_true, Bool.false_eq_true, if_false, Option.some.injEq,
        Prod.mk.injEq] at h
      obtain ⟨h1, h2⟩ := h
      subst h1
      exact ⟨hb, fun hf => by simp [← h2] at hf⟩
    | false =>
      simp only [hd, Bool.not_false, if_true, Option.some.injEq, Prod.mk.injEq] at h
      obtain ⟨h1, _⟩ := h
      subst h1
      exact ⟨hb, fun _ => rfl⟩

theorem runSlices_block (c : AsyncConsts) (clock : Nat → Int) (func : Nat → Bool) (fuel : Nat) :
    ∀ (n : Nat) (s0 s : AsyncState), s0.block = c._bSz → s0.done = false →
      runSlices c clock func fuel n s0 = some (s, true) →
      s.block = c._bSz ∧ s.done = false := by
  intro n
  induction n with
  | zero =>
    intro s0 s h0 hd h
    simp only [runSlices, Option.some.injEq, Prod.mk.injEq, and_true] at h
    subst h
    exact ⟨h0, hd⟩
  | succ n ih =>
    intro s0 s h0 _ h
    unfold runSlices at h
    cases hs : slice c clock func fuel s0 with
    | none => simp [hs] at h
    | some r =>
      obtain ⟨s1, flag⟩ := r
      obtain ⟨hb, hdn⟩ := slice_block c clock func fuel s0 s1 flag h0 hs
      cases flag with
      | true =>
        simp only [hs] at h
        exact ih s1 s hb (hdn rfl) h
      | false => simp [hs] at h

/-- C10 fails as stated. (1) With the block size and delay of the sources and a
time budget `_to = 10`, a first call of `func` that lasts 11 ms is followed, in
the same slice, by a second call that starts at elapsed time 11 > 10. (2) With
`_bSz = 3` and `_to = 10`, the first slice calls `func` six times, more than
the block size, because the clock stays below the deadline at two further block
boundaries. -/
theorem async_slice_counterexample :
    (∃ s : AsyncState,
      _async budgetConsts lateClock twoStepFunc 5 1 = some (s, false) ∧
      s.trace = [.now 0, .now 0, .call 0 0 false, .call 1 11 true, .callback] ∧
      budgetConsts._to = some 10 ∧ (10 : Int) < 11 - 0) ∧
    (∃ s : AsyncState,
      outerLoop smallBlockConsts slowClock sevenStepFunc 5
        (initState smallBlockConsts slowClock) = some s ∧
      s.trace = [.now 0, .now 0, .call 0 0 false, .call 1 0 false, .now 0,
        .call 2 0 false, .call 3 0 false, .now 0, .call 4 11 false, .call 5 11 false,
        .now 11] ∧
      callCount s.trace = 6 ∧ smallBlockConsts._bSz = 3 ∧ (3 : Int) < 6) :=
  ⟨⟨_, rfl, by decide, rfl, by decide⟩, ⟨_, rfl, by decide, by decide, rfl, by decide⟩⟩

/-- C10 as amended. In every slice of `_async` (the state `s` is reached
after `n` slices with a further one scheduled, and the loops of that slice
leave it in `s1`), the events of the loops are blocks of at most `_bSz - 1`
consecutive calls of `func`; a block is started only right after a clock
reading below the deadline, the clock is not read inside a block, and the
loops end when `func` has returned true or at the first reading, taken at a
block boundary, that is not below the deadline. Hence the calls of the slice
number at most `_bSz - 1` times the number of readings below the deadline. -/
theorem async_slice_shape (c : AsyncConsts) (clock : Nat → Int) (func : Nat → Bool)
    (fuel n : Nat) (s s1 : AsyncState)
    (hreach : _async c clock func fuel n = some (s, true))
    (hloop : outerLoop c clock func fuel s = some s1) :
    ∃ seg : List Event,
      s1.trace = s.trace ++ seg ∧
      SliceShape c._bSz s.lastTime false s1.done seg ∧
      callCount seg ≤ (c._bSz - 1).toNat * passCount s.lastTime seg ∧
      (s1.done = true ∨
        ∃ (a : List Event) (t : Int), seg = a ++ [.now t] ∧ beforeDeadline t s.lastTime = false) := by
  obtain ⟨hb, hd⟩ := runSlices_block c clock func fuel n (initState c clock) s rfl rfl hreach
  obtain ⟨seg, h1, h2, _, _⟩ := outerLoop_shape c clock func fuel s s1 hb hloop
  rw [hd] at h2
  exact ⟨seg, h1, h2, sliceShape_counts _ _ _ _ _ h2, sliceShape_end _ _ _ _ _ h2⟩

/-- C10 as amended, at the first slice of a run with `_bSz = 3`, `_to = 10` and
a clock that passes the deadline during the third block. -/
theorem async_slice_shape_witness :
    ∃ s1 : AsyncState,
      (_async smallBlockConsts slowClock sevenStepFunc 5 0
          = some (initState smallBlockConsts slowClock, true) ∧
        outerLoop smallBlockConsts slowClock sevenStepFunc 5
          (initState smallBlockConsts slowClock) = some s1) ∧
      ∃ seg : List Event,
        s1.trace = (initState smallBlockConsts slowClock).trace ++ seg ∧
        SliceShape smallBlockConsts._bSz (initState smallBlockConsts slowClock).lastTime
          false s1.done seg ∧
        callCount seg
          ≤ (smallBlockConsts._bSz - 1).toNat
              * passCount (initState smallBlockConsts slowClock).lastTime seg ∧
        (s1.done = true ∨
          ∃ (a : List Event) (t : Int), seg = a ++ [.now t] ∧
            beforeDeadline t (initState smallBlockConsts slowClock).lastTime = false) :=
  ⟨_, ⟨rfl, rfl⟩,
    async_slice_shape smallBlockConsts slowClock sevenStepFunc 5 0
      (initState smallBlockConsts slowClock) _ rfl rfl⟩

/-! ## Rounding to binary64 -/

theorem roundHalfEven_intCast (n : Int) : roundHalfEven (n : ℚ) = n := by
  simp [roundHalfEven]

theorem le_roundHalfEven (x : ℚ) (a : Int) (h : (a : ℚ) ≤ x) : a ≤ roundHalfEven x := by
  have hf : a ≤ ⌊x⌋ := Int.le_floor.mpr h
  unfold roundHalfEven
  split_ifs <;> omega

theorem roundHalfEven_le (x : ℚ) (b : Int) (h : x ≤ (b : ℚ)) : roundHalfEven x ≤ b := by
  have hf : ⌊x⌋ ≤ b := by
    have : (⌊x⌋ : ℚ) ≤ b := le_trans (Int.floor_le x) h
    exact_mod_cast this
  unfold roundHalfEven
  by_cases h1 : x - ⌊x⌋ < 1 / 2
  · simp only [h1, if_true]; exact hf
  · have hlt : ⌊x⌋ < b := by
      have h2 : (⌊x⌋ : ℚ) < x := by linarith
      have h3 : (⌊x⌋ : ℚ) < b := lt_of_lt_of_le h2 h
      exact_mod_cast h3
    simp only [h1, if_false]
    split_ifs <;> omega

theorem two_zpow_pos (e : Int) : (0 : ℚ) < 2 ^ e := zpow_pos (by norm_num) e

theorem scaled_eq_intCast (n k e : Int) (h : e ≤ k) :
    ((n : ℚ) * 2 ^ k) / 2 ^ e = ((n * 2 ^ (k - e).toNat : Int) : ℚ) := by
  have hpos := two_zpow_pos e
  rw [div_eq_iff (ne_of_gt hpos)]
  push_cast
  rw [← zpow_natCast, Int.toNat_of_nonneg (by omega), mul_assoc,
    ← zpow_add₀ (by norm_num : (2 : ℚ) ≠ 0)]
  congr 2
  omega

theorem ulpExp_le (q : ℚ) (k : Int) (hk : -1074 ≤ k) (hq0 : q ≠ 0)
    (hq : |q| < 2 ^ (k + 53)) : ulpExp q ≤ k := by
  unfold ulpExp
  apply max_le _ hk
  have hlog : Int.log 2 |q| < k + 53 := by
    rw [← Int.lt_zpow_iff_log_lt (by norm_num) (abs_pos.mpr hq0)]
    exact_mod_cast hq
  omega

/-- A rational with at most 53 significant bits, above the subnormal spacing and
below the overflow threshold, is a binary64 value: rounding keeps it. -/
theorem roundDouble_exact (n k : Int) (hn : |n| < 2 ^ 53) (hk : -1074 ≤ k)
    (hq : |(n : ℚ) * 2 ^ k| < 2 ^ (1024 : Int)) :
    roundDouble ((n : ℚ) * 2 ^ k) = .fin ((n : ℚ) * 2 ^ k) := by
  by_cases hn0 : n = 0
  · subst hn0
    simp only [roundDouble, roundHalfEven, Int.cast_zero, zero_mul, zero_div, Int.floor_zero,
      sub_self, one_div, inv_pos, Nat.ofNat_pos, if_true, abs_zero]
    rw [if_neg (not_le.mpr (two_zpow_pos 1024))]
  · have hq0 : (n : ℚ) * 2 ^ k ≠ 0 :=
      mul_ne_zero (by exact_mod_cast hn0) (ne_of_gt (two_zpow_pos k))
    have hlt : |(n : ℚ) * 2 ^ k| < 2 ^ (k + 53) := by
      rw [abs_mul, abs_of_pos (two_zpow_pos k), zpow_add₀ (by norm_num : (2 : ℚ) ≠ 0), mul_comm]
      apply mul_lt_mul_of_pos_left _ (two_zpow_pos k)
      have h53 : (2 : ℚ) ^ (53 : Int) = ((2 ^ 53 : Int) : ℚ) := by norm_num
      rw [h53]
      exact_mod_cast hn
    have he := ulpExp_le _ k hk hq0 hlt
    have hr : ((roundHalfEven (((n : ℚ) * 2 ^ k) / 2 ^ ulpExp ((n : ℚ) * 2 ^ k)) : Int) : ℚ)
        * 2 ^ ulpExp ((n : ℚ) * 2 ^ k) = (n : ℚ) * 2 ^ k := by
      rw [scaled_eq_intCast n k _ he, roundHalfEven_intCast, ← scaled_eq_intCast n k _ he]
      exact div_mul_cancel₀ _ (ne_of_gt (two_zpow_pos _))
    unfold roundDouble
    simp only [hr]
    rw [if_neg (not_le.mpr hq)]

/-- The same for values of magnitude below `2^53` on a grid `2^k`, `k ≤ 0`. -/
theorem roundDouble_small (n k : Int) (hn : |n| < 2 ^ 53) (hk : -1074 ≤ k) (hk0 : k ≤ 0) :
    roundDouble ((n : ℚ) * 2 ^ k) = .fin ((n : ℚ) * 2 ^ k) := by
  apply roundDouble_exact n k hn hk
  rw [abs_mul, abs_of_pos (two_zpow_pos k)]
  have h1 : (2 : ℚ) ^ k ≤ 1 := by
    have := zpow_le_zpow_right₀ (by norm_num : (1 : ℚ) ≤ 2) hk0
    simpa using this
  have h2 : |(n : ℚ)| < 2 ^ (53 : Int) := by
    have h53 : (2 : ℚ) ^ (53 : Int) = ((2 ^ 53 : Int) : ℚ) := by norm_num
    rw [h53]
    exact_mod_cast hn
  have h3 : (2 : ℚ) ^ (53 : Int) ≤ 2 ^ (1024 : Int) :=
    zpow_le_zpow_right₀ (by norm_num) (by norm_num)
  calc |(n : ℚ)| * 2 ^ k ≤ |(n : ℚ)| * 1 :=
        mul_le_mul_of_nonneg_left h1 (abs_nonneg _)
    _ = |(n : ℚ)| := mul_one _
    _ < 2 ^ (53 : Int) := h2
    _ ≤ 2 ^ (1024 : Int) := h3

/-- Rounding is monotone against values on a coarser binary grid: an exact
result between `a * 2^k` and `b * 2^k` whose spacing exponent is at most `k`
rounds to a finite value between the same bounds. -/
theorem roundDouble_between (q : ℚ) (a b k : Int) (he : ulpExp q ≤ k)
    (ha : (a : ℚ) * 2 ^ k ≤ q) (hb : q ≤ (b : ℚ) * 2 ^ k)
    (hlo : -(2 : ℚ) ^ (1024 : Int) < (a : ℚ) * 2 ^ k)
    (hhi : (b : ℚ) * 2 ^ k < 2 ^ (1024 : Int)) :
    ∃ r : ℚ, roundDouble q = .fin r ∧ (a : ℚ) * 2 ^ k ≤ r ∧ r ≤ (b : ℚ) * 2 ^ k := by
  have hpos := two_zpow_pos (ulpExp q)
  have h1 : (a : ℚ) * 2 ^ k ≤
      (roundHalfEven (q / 2 ^ ulpExp q) : ℚ) * 2 ^ ulpExp q := by
    have hA : ((a * 2 ^ (k - ulpExp q).toNat : Int) : ℚ) ≤ q / 2 ^ ulpExp q := by
      rw [← scaled_eq_intCast a k _ he]
      exact div_le_div_of_nonneg_right ha (le_of_lt hpos)
    have := le_roundHalfEven _ _ hA
    have h2 : ((a * 2 ^ (k - ulpExp q).toNat : Int) : ℚ) ≤ (roundHalfEven (q / 2 ^ ulpExp q) : ℚ) := by
      exact_mod_cast this
    calc (a : ℚ) * 2 ^ k = ((a : ℚ) * 2 ^ k) / 2 ^ ulpExp q * 2 ^ ulpExp q :=
          (div_mul_cancel₀ _ (ne_of_gt hpos)).symm
      _ = ((a * 2 ^ (k - ulpExp q).toNat : Int) : ℚ) * 2 ^ ulpExp q := by
          rw [scaled_eq_intCast a k _ he]
      _ ≤ _ := mul_le_mul_of_nonneg_right h2 (le_of_lt hpos)
  have h2 : (roundHalfEven (q / 2 ^ ulpExp q) : ℚ) * 2 ^ ulpExp q ≤ (b : ℚ) * 2 ^ k := by
    have hB : q / 2 ^ ulpExp q ≤ ((b * 2 ^ (k - ulpExp q).toNat : Int) : ℚ) := by
      rw [← scaled_eq_intCast b k _ he]
      exact div_le_div_of_nonneg_right hb (le_of_lt hpos)
    have := roundHalfEven_le _ _ hB
    have h3 : (roundHalfEven (q / 2 ^ ulpExp q) : ℚ) ≤ ((b * 2 ^ (k - ulpExp q).toNat : Int) : ℚ) := by
      exact_mod_cast this
    calc (roundHalfEven (q / 2 ^ ulpExp q) : ℚ) * 2 ^ ulpExp q
        ≤ ((b * 2 ^ (k - ulpExp q).toNat : Int) : ℚ) * 2 ^ ulpExp q :=
          mul_le_mul_of_nonneg_right h3 (le_of_lt hpos)
      _ = ((b : ℚ) * 2 ^ k) / 2 ^ ulpExp q * 2 ^ ulpExp q := by
          rw [scaled_eq_intCast b k _ he]
      _ = (b : ℚ) * 2 ^ k := div_mul_cancel₀ _ (ne_of_gt hpos)
  refine ⟨_, ?_, h1, h2⟩
  unfold roundDouble
  simp only
  rw [if_neg]
  rw [not_le, abs_lt]
  constructor <;> linarith

/-! ## C5: `floatToComp` -/

theorem floatToComp_of_read (channel : DataView) (pos : Nat) (x : JSNum)
    (h : channel.getFloat32 pos = .ok x) :
    floatToComp channel pos = .ok (scaleToByte x) := by
  simp [floatToComp, h]

theorem getFloat32_decode (channel : DataView) (pos : Nat) (x : JSNum)
    (h : channel.getFloat32 pos = .ok x) :
    ∃ b0 b1 b2 b3 : Byte, x = decodeFloat32 b0 b1 b2 b3 := by
  unfold DataView.getFloat32 at h
  split at h
  · split at h
    · simp only [Except.ok.injEq] at h
      exact ⟨_, _, _, _, h.symm⟩
    · simp at h
  · simp at h

/-- A finite binary32 value is `m * 2^e` up to sign, with `m < 2^24` and
`-149 ≤ e ≤ 104`. -/
theorem decodeFloat32_fin (b0 b1 b2 b3 : Byte) (v : ℚ)
    (h : decodeFloat32 b0 b1 b2 b3 = .fin v) :
    ∃ (m : Nat) (e : Int), |v| = (m : ℚ) * 2 ^ e ∧ m < 2 ^ 24 ∧ -149 ≤ e ∧ e ≤ 104 := by
  unfold decodeFloat32 decodeBits at h
  simp only at h
  split at h
  · split at h
    · split at h <;> simp at h
    · simp at h
  · rename_i hexp
    simp only [JSNum.fin.injEq] at h
    set bits : Nat := float32Bits b0 b1 b2 b3 with hbits
    have hmant : bits % 2 ^ 23 < 2 ^ 23 := Nat.mod_lt _ (by norm_num)
    have hexpo : bits / 2 ^ 23 % 256 < 256 := Nat.mod_lt _ (by norm_num)
    by_cases h0 : bits / 2 ^ 23 % 256 = 0
    · refine ⟨bits % 2 ^ 23, -149, ?_, by omega, by omega, by omega⟩
      have hm : (0 : ℚ) ≤ ((bits % 2 ^ 23 : Nat) : ℚ) * 2 ^ (-149 : Int) :=
        mul_nonneg (Nat.cast_nonneg _) (le_of_lt (two_zpow_pos _))
      rw [if_pos h0] at h
      rw [← h]
      split
      · rw [abs_neg, abs_of_nonneg hm]
      · rw [abs_of_nonneg hm]
    · refine ⟨2 ^ 23 + bits % 2 ^ 23, ((bits / 2 ^ 23 % 256 : Nat) : Int) - 150, ?_,
        by omega, by omega, by omega⟩
      have hm : (0 : ℚ) ≤ ((2 ^ 23 + bits % 2 ^ 23 : Nat) : ℚ)
          * 2 ^ (((bits / 2 ^ 23 % 256 : Nat) : Int) - 150) :=
        mul_nonneg (Nat.cast_nonneg _) (le_of_lt (two_zpow_pos _))
      rw [if_neg h0] at h
      rw [← h]
      split
      · rw [abs_neg, abs_of_nonneg hm]
      · rw [abs_of_nonneg hm]

theorem toInt32_fin_of_floor (r : ℚ) (z : Int) (hr : 0 ≤ r) (hz : ⌊r⌋ = z) (h1 : z < 2 ^ 31) :
    JSNum.toInt32 (.fin r) = z := by
  have h0 : 0 ≤ z := by rw [← hz]; exact Int.floor_nonneg.mpr hr
  simp only [JSNum.toInt32, hr, if_true, hz]
  exact toInt32_of_lt z h0 h1

/-- The sum `v * 255 + 0.5` computed in binary64 for a binary32 sample `v` in
[0, 1]: truncation gives `⌊v * 255 + 1/2⌋`. -/
theorem scale_unit_sample (v : ℚ) (m : Nat) (e : Int) (hv : v = (m : ℚ) * 2 ^ e)
    (hm : m < 2 ^ 24) (he : -149 ≤ e) (h0 : 0 ≤ v) (h1 : v ≤ 1) :
    scaleToByte (.fin v) = ⌊v * 255 + 1 / 2⌋ := by
  unfold scaleToByte
  have hfl0 : 0 ≤ ⌊v * 255 + 1 / 2⌋ := Int.floor_nonneg.mpr (by linarith)
  have hfl1 : ⌊v * 255 + 1 / 2⌋ < 2 ^ 31 := by
    have : ⌊v * 255 + 1 / 2⌋ < 256 := by
      rw [Int.floor_lt]
      push_cast
      linarith
    omega
  have hbig : (255 : ℚ) + 1 < 2 ^ (1024 : Int) := by
    have : (2 : ℚ) ^ (9 : Int) ≤ 2 ^ (1024 : Int) := zpow_le_zpow_right₀ (by norm_num) (by norm_num)
    have h9 : (2 : ℚ) ^ (9 : Int) = 512 := by norm_num
    linarith
  -- the product is exact
  have hmul : JSNum.mul (.fin v) (.fin 255) = .fin (v * 255) := by
    have hx : v * 255 = (((m : Int) * 255 : Int) : ℚ) * 2 ^ e := by
      rw [hv]; push_cast; ring
    simp only [JSNum.mul]
    rw [hx]
    apply roundDouble_exact
    · have : |(m : Int) * 255| = (m : Int) * 255 := abs_of_nonneg (by positivity)
      rw [this]
      omega
    · omega
    · rw [← hx, abs_of_nonneg (by linarith)]
      linarith
  rw [hmul]
  simp only [JSNum.add]
  by_cases hcase : -53 ≤ e
  · -- the sum is exact
    have hsum : roundDouble (v * 255 + 1 / 2) = .fin (v * 255 + 1 / 2) := by
      by_cases hneg : e < 0
      · have hx : v * 255 + 1 / 2
            = (((m : Int) * 255 + 2 ^ (-1 - e).toNat : Int) : ℚ) * 2 ^ e := by
          rw [hv]
          push_cast
          rw [← zpow_natCast, Int.toNat_of_nonneg (by omega), add_mul,
            ← zpow_add₀ (by norm_num : (2 : ℚ) ≠ 0)]
          have : -1 - e + e = -1 := by omega
          rw [this]
          norm_num
          ring
        rw [hx]
        apply roundDouble_exact
        · have hp : (2 : Int) ^ (-1 - e).toNat ≤ 2 ^ 52 :=
            pow_le_pow_right₀ (by norm_num) (by omega)
          have hpos : (0 : Int) < 2 ^ (-1 - e).toNat := by positivity
          rw [abs_of_nonneg (by positivity)]
          omega
        · omega
        · rw [← hx, abs_of_nonneg (by linarith)]
          linarith
      · have hvi : v = (((m : Int) * 2 ^ e.toNat : Int) : ℚ) := by
          rw [hv]
          push_cast
          rw [← zpow_natCast, Int.toNat_of_nonneg (by omega)]
        have hle : (m : Int) * 2 ^ e.toNat ≤ 1 := by
          have : (((m : Int) * 2 ^ e.toNat : Int) : ℚ) ≤ ((1 : Int) : ℚ) := by
            rw [← hvi]; simpa using h1
          exact_mod_cast this
        have hge : 0 ≤ (m : Int) * 2 ^ e.toNat := by positivity
        have hx : v * 255 + 1 / 2
            = (((m : Int) * 2 ^ e.toNat * 510 + 1 : Int) : ℚ) * 2 ^ (-1 : Int) := by
          rw [hvi]
          push_cast
          norm_num
          ring
        rw [hx]
        apply roundDouble_exact
        · rw [abs_of_nonneg (by omega)]
          omega
        · omega
        · rw [← hx, abs_of_nonneg (by linarith)]
          linarith
    rw [hsum]
    exact toInt32_fin_of_floor _ _ (by linarith) rfl hfl1
  · -- the sample is tiny: the sum rounds to a value in [1/2, 3/4]
    have hsmall : v * 255 ≤ 1 / 4 := by
      have hpow : (2 : ℚ) ^ e ≤ 2 ^ (-54 : Int) := zpow_le_zpow_right₀ (by norm_num) (by omega)
      have hmq : (m : ℚ) ≤ 2 ^ 24 := by exact_mod_cast (le_of_lt hm)
      have : v ≤ 2 ^ 24 * 2 ^ (-54 : Int) := by
        rw [hv]
        exact mul_le_mul hmq hpow (le_of_lt (two_zpow_pos _)) (by positivity)
      have h30 : (2 : ℚ) ^ 24 * 2 ^ (-54 : Int) = 1 / 1073741824 := by norm_num
      rw [h30] at this
      linarith
    have hq0 : v * 255 + 1 / 2 ≠ 0 := by
      have : 0 < v * 255 + 1 / 2 := by linarith
      exact ne_of_gt this
    have hulp : ulpExp (v * 255 + 1 / 2) ≤ -2 := by
      apply ulpExp_le _ _ (by omega) hq0
      rw [abs_of_nonneg (by linarith)]
      have h51 : (2 : ℚ) ^ ((-2 : Int) + 53) = 2251799813685248 := by norm_num
      rw [h51]
      linarith
    obtain ⟨r, hr, hlo, hhi⟩ := roundDouble_between (v * 255 + 1 / 2) 2 3 (-2) hulp
      (by norm_num; linarith) (by norm_num; linarith)
      (by norm_num)
      (by norm_num)
    rw [hr]
    have hlo' : (1 : ℚ) / 2 ≤ r := by
      have : ((2 : Int) : ℚ) * 2 ^ (-2 : Int) = 1 / 2 := by norm_num
      rw [this] at hlo; exact hlo
    have hhi' : r ≤ 3 / 4 := by
      have : ((3 : Int) : ℚ) * 2 ^ (-2 : Int) = 3 / 4 := by norm_num
      rw [this] at hhi; exact hhi
    have hfl : ⌊v * 255 + 1 / 2⌋ = 0 := by
      rw [Int.floor_eq_iff]
      constructor <;> push_cast <;> linarith
    rw [hfl]
    apply toInt32_fin_of_floor _ _ (by linarith) _ (by norm_num)
    rw [Int.floor_eq_iff]
    constructor <;> push_cast <;> linarith

theorem read_channelTwo : channelTwo.getFloat32 0 = .ok (.fin 2) := by
  have h0 : channelTwo.get? 0 = some 64 := by decide
  have h1 : channelTwo.get? (0 + 1) = some 0 := by decide
  have h2 : channelTwo.get? (0 + 2) = some 0 := by decide
  have h3 : channelTwo.get? (0 + 3) = some 0 := by decide
  have hb : float32Bits 64 0 0 0 = 1073741824 := by decide
  have hl : 0 + 4 ≤ channelTwo.length := by decide
  simp only [DataView.getFloat32, hl, if_true, h0, h1, h2, h3, decodeFloat32, hb, decodeBits]
  norm_num

theorem read_channelMinusOne : channelMinusOne.getFloat32 0 = .ok (.fin (-1)) := by
  have h0 : channelMinusOne.get? 0 = some 191 := by decide
  have h1 : channelMinusOne.get? (0 + 1) = some 128 := by decide
  have h2 : channelMinusOne.get? (0 + 2) = some 0 := by decide
  have h3 : channelMinusOne.get? (0 + 3) = some 0 := by decide
  have hb : float32Bits 191 128 0 0 = 3212836864 := by decide
  have hl : 0 + 4 ≤ channelMinusOne.length := by decide
  simp only [DataView.getFloat32, hl, if_true, h0, h1, h2, h3, decodeFloat32, hb, decodeBits]
  norm_num

theorem read_channelHalf : channelHalf.getFloat32 0 = .ok (.fin (1 / 2)) := by
  have h0 : channelHalf.get? 0 = some 63 := by decide
  have h1 : channelHalf.get? (0 + 1) = some 0 := by decide
  have h2 : channelHalf.get? (0 + 2) = some 0 := by decide
  have h3 : channelHalf.get? (0 + 3) = some 0 := by decide
  have hb : float32Bits 63 0 0 0 = 1056964608 := by decide
  have hl : 0 + 4 ≤ channelHalf.length := by decide
  simp only [DataView.getFloat32, hl, if_true, h0, h1, h2, h3, decodeFloat32, hb, decodeBits]
  norm_num

/-- C5 fails as stated: the result is not clamped. The sample 2.0 gives 510 and
the sample -1.0 gives -254, both outside [0, 255]. -/
theorem floatToComp_counterexample :
    (channelTwo.getFloat32 0 = .ok (.fin 2) ∧ floatToComp channelTwo 0 = .ok 510 ∧
      ¬ ((510 : Int) ≤ 255)) ∧
    (channelMinusOne.getFloat32 0 = .ok (.fin (-1)) ∧
      floatToComp channelMinusOne 0 = .ok (-254) ∧ ¬ ((0 : Int) ≤ -254)) := by
  refine ⟨⟨read_channelTwo, ?_, by decide⟩, ⟨read_channelMinusOne, ?_, by decide⟩⟩
  · rw [floatToComp_of_read _ _ _ read_channelTwo]
    have h1 : roundDouble (2 * 255) = .fin (2 * 255) := by
      have := roundDouble_small 510 0 (by norm_num) (by norm_num) (by norm_num)
      norm_num at this ⊢
      exact this
    have h2 : roundDouble (2 * 255 + 1 / 2) = .fin (2 * 255 + 1 / 2) := by
      have := roundDouble_small 1021 (-1) (by norm_num) (by norm_num) (by norm_num)
      norm_num at this ⊢
      exact this
    simp only [scaleToByte, JSNum.mul, JSNum.add, h1, h2]
    congr 1
    apply toInt32_fin_of_floor _ _ (by norm_num) _ (by norm_num)
    rw [Int.floor_eq_iff]
    norm_num
  · rw [floatToComp_of_read _ _ _ read_channelMinusOne]
    have h1 : roundDouble (-1 * 255) = .fin (-1 * 255) := by
      have := roundDouble_small (-255) 0 (by norm_num) (by norm_num) (by norm_num)
      norm_num at this ⊢
      exact this
    have h2 : roundDouble (-1 * 255 + 1 / 2) = .fin (-1 * 255 + 1 / 2) := by
      have := roundDouble_small (-509) (-1) (by norm_num) (by norm_num) (by norm_num)
      norm_num at this ⊢
      exact this
    simp only [scaleToByte, JSNum.mul, JSNum.add, h1, h2]
    congr 1
    have hc : ⌈(-1 * 255 + 1 / 2 : ℚ)⌉ = -254 := by
      rw [Int.ceil_eq_iff]
      norm_num
    have hneg : ¬ ((0 : ℚ) ≤ -1 * 255 + 1 / 2) := by norm_num
    simp only [JSNum.toInt32, hneg, if_false, hc]
    decide

/-- C5 as amended. For a sample read at `pos`: `NaN` and the infinities give 0;
a finite sample `v` in [0.0, 1.0] gives `⌊v * 255 + 1/2⌋`, that is `v * 255`
rounded to the nearest integer (halves up), an integer in [0, 255]. Nothing is
claimed for finite samples outside [0.0, 1.0]: they are not clamped. -/
theorem floatToComp_spec (channel : DataView) (pos : Nat) (x : JSNum)
    (hread : channel.getFloat32 pos = .ok x) :
    ((x = .nan ∨ x = .posInf ∨ x = .negInf) → floatToComp channel pos = .ok 0) ∧
    (∀ v : ℚ, x = .fin v → 0 ≤ v → v ≤ 1 →
      floatToComp channel pos = .ok ⌊v * 255 + 1 / 2⌋ ∧
      0 ≤ ⌊v * 255 + 1 / 2⌋ ∧ ⌊v * 255 + 1 / 2⌋ ≤ 255) := by
  constructor
  · intro hx
    rw [floatToComp_of_read _ _ _ hread]
    rcases hx with h | h | h <;> subst h <;> simp [scaleToByte, JSNum.mul, JSNum.add, JSNum.toInt32]
  · intro v hx h0 h1
    subst hx
    obtain ⟨b0, b1, b2, b3, hdec⟩ := getFloat32_decode _ _ _ hread
    obtain ⟨m, e, hv, hm, he, _⟩ := decodeFloat32_fin b0 b1 b2 b3 v hdec.symm
    rw [abs_of_nonneg h0] at hv
    rw [floatToComp_of_read _ _ _ hread, scale_unit_sample v m e hv hm he h0 h1]
    refine ⟨rfl, Int.floor_nonneg.mpr (by linarith), ?_⟩
    have : ⌊v * 255 + 1 / 2⌋ < 256 := by
      rw [Int.floor_lt]
      push_cast
      linarith
    omega

/-- C5 as amended, at the sample 0.5: the result is 128. -/
theorem floatToComp_witness :
    channelHalf.getFloat32 0 = .ok (.fin (1 / 2)) ∧
    ⌊(1 / 2 : ℚ) * 255 + 1 / 2⌋ = 128 ∧
    (((JSNum.fin (1 / 2) = .nan ∨ JSNum.fin (1 / 2) = .posInf ∨ JSNum.fin (1 / 2) = .negInf) →
        floatToComp channelHalf 0 = .ok 0) ∧
      (∀ v : ℚ, JSNum.fin (1 / 2) = .fin v → 0 ≤ v → v ≤ 1 →
        floatToComp channelHalf 0 = .ok ⌊v * 255 + 1 / 2⌋ ∧
        0 ≤ ⌊v * 255 + 1 / 2⌋ ∧ ⌊v * 255 + 1 / 2⌋ ≤ 255)) :=
  ⟨read_channelHalf, by rw [Int.floor_eq_iff]; norm_num,
    floatToComp_spec channelHalf 0 (.fin (1 / 2)) read_channelHalf⟩

/-! ## C6 and C8: `getGammaLUT` -/

theorem foldl_set_length (f : Nat → Nat) :
    ∀ (n : Nat) (l : List Nat),
      ((List.range n).foldl (fun lut i => lut.set i (f i)) l).length = l.length := by
  intro n
  induction n with
  | zero => intro l; simp
  | succ n ih =>
    intro l
    rw [List.range_succ, List.foldl_append]
    simp [ih]

theorem foldl_set_getElem? (f : Nat → Nat) :
    ∀ (n : Nat) (l : List Nat) (j : Nat),
      ((List.range n).foldl (fun lut i => lut.set i (f i)) l)[j]?
        = if j < n ∧ j < l.length then some (f j) else l[j]? := by
  intro n
  induction n with
  | zero => intro l j; simp
  | succ n ih =>
    intro l j
    rw [List.range_succ, List.foldl_append]
    simp only [List.foldl_cons, List.foldl_nil]
    rw [List.getElem?_set, foldl_set_length, ih]
    by_cases hj : n = j
    · subst hj
      by_cases hl : n < l.length
      · simp [hl]
      · simp only [hl, if_false, and_false, if_true]
        rw [List.getElem?_eq_none (by omega)]
    · simp only [hj, if_false]
      by_cases h1 : j < n
      · have : j < n + 1 := by omega
        simp [h1, this]
      · have : ¬ j < n + 1 := by omega
        simp [h1, this]

theorem getGammaLUT_length (approx : ℚ → ℚ → JSNum) (gamma : JSNum) :
    (getGammaLUT approx gamma).length = 256 := by
  unfold getGammaLUT
  split <;> simp [foldl_set_length]

theorem getGammaLUT_entry (approx : ℚ → ℚ → JSNum) (gamma : JSNum) (i : Nat)
    (hg : gamma ≠ .fin 1) (hi : i < 256) :
    (getGammaLUT approx gamma)[i]? = some (toUint8Clamp (gammaEntry approx gamma i)) := by
  unfold getGammaLUT
  simp only [hg, if_false]
  rw [foldl_set_getElem?]
  simp [hi]

theorem getGammaLUT_one_entry (approx : ℚ → ℚ → JSNum) (i : Nat) (hi : i < 256) :
    (getGammaLUT approx (.fin 1))[i]? = some i := by
  unfold getGammaLUT
  simp only [if_true]
  rw [foldl_set_getElem?]
  simp only [hi, List.length_replicate, and_self, if_true, Option.some.injEq]
  unfold toUint8Clamp
  split_ifs <;> omega

theorem roundDouble_zero : roundDouble 0 = .fin 0 := by
  have := roundDouble_small 0 0 (by norm_num) (by norm_num) (by norm_num)
  simpa using this

theorem roundDouble_one : roundDouble 1 = .fin 1 := by
  have := roundDouble_small 1 0 (by norm_num) (by norm_num) (by norm_num)
  simpa using this

theorem roundDouble_half : roundDouble (1 / 2) = .fin (1 / 2) := by
  have := roundDouble_small 1 (-1) (by norm_num) (by norm_num) (by norm_num)
  norm_num at this ⊢
  exact this

theorem roundDouble_255 : roundDouble 255 = .fin 255 := by
  have := roundDouble_small 255 0 (by norm_num) (by norm_num) (by norm_num)
  simpa using this

theorem roundDouble_255_half : roundDouble (255 + 1 / 2) = .fin (255 + 1 / 2) := by
  have := roundDouble_small 511 (-1) (by norm_num) (by norm_num) (by norm_num)
  norm_num at this ⊢
  exact this

/-- The loop body's value when the power is `+0`: `(0 * 255 + 0.5)|0 = 0`. -/
theorem scaled_zero :
    scaleToByte (.fin 0) = 0 := by
  simp only [scaleToByte, JSNum.mul, JSNum.add, zero_mul, roundDouble_zero, zero_add, roundDouble_half]
  apply toInt32_fin_of_floor _ _ (by norm_num) _ (by norm_num)
  rw [Int.floor_eq_iff]
  norm_num

/-- The loop body's value when the power is 1: `(1 * 255 + 0.5)|0 = 255`. -/
theorem scaled_one :
    scaleToByte (.fin 1) = 255 := by
  simp only [scaleToByte, JSNum.mul, JSNum.add, one_mul, roundDouble_255, roundDouble_255_half]
  apply toInt32_fin_of_floor _ _ (by norm_num) _ (by norm_num)
  rw [Int.floor_eq_iff]
  norm_num

/-- The loop body's value when the power is `NaN`: `NaN|0 = 0`. -/
theorem scaled_nan :
    scaleToByte .nan = 0 := by
  simp [scaleToByte, JSNum.mul, JSNum.add, JSNum.toInt32]

/-- The loop body's value when the power is `+Infinity`: `Infinity|0 = 0`. -/
theorem scaled_posInf :
    scaleToByte .posInf = 0 := by
  simp [scaleToByte, JSNum.mul, JSNum.add, JSNum.toInt32]

theorem gammaEntry_first (approx : ℚ → ℚ → JSNum) (gamma : JSNum) :
    gammaEntry approx gamma 0 = if gamma = .fin 0 then 255 else 0 := by
  unfold gammaEntry
  have hb : roundDouble (((0 : Nat) : ℚ) / 255) = .fin 0 := by
    simp [roundDouble_zero]
  rw [hb]
  cases gamma with
  | nan => simp [Math.pow, scaled_nan]
  | posInf =>
    rw [if_neg (by simp)]
    norm_num [Math.pow, scaled_zero]
  | negInf =>
    rw [if_neg (by simp)]
    norm_num [Math.pow, scaled_posInf]
  | fin y =>
    by_cases hy : y = 0
    · subst hy
      simp [Math.pow, scaled_one]
    · have hne : JSNum.fin y ≠ JSNum.fin 0 := by
        intro h; exact hy (JSNum.fin.inj h)
      by_cases hpos : 0 < y
      · simp [Math.pow, hy, hpos, scaled_zero]
      · simp [Math.pow, hy, hpos, scaled_posInf]

theorem gammaEntry_last (approx : ℚ → ℚ → JSNum) (gamma : JSNum) :
    gammaEntry approx gamma 255 =
      match gamma with
      | .fin y =>
        if y = 0 then 255
        else scaleToByte (approx 1 y)
      | _ => 0 := by
  unfold gammaEntry
  have hb : roundDouble (((255 : Nat) : ℚ) / 255) = .fin 1 := by
    have : ((255 : Nat) : ℚ) / 255 = 1 := by norm_num
    rw [this, roundDouble_one]
  rw [hb]
  cases gamma with
  | nan => simp [Math.pow, scaled_nan]
  | posInf => simp [Math.pow, scaled_nan]
  | negInf => simp [Math.pow, scaled_nan]
  | fin y =>
    by_cases hy : y = 0
    · subst hy
      simp [Math.pow, scaled_one]
    · norm_num [Math.pow, hy]

/-- C6 fails as stated. For `gamma = 0` entry 0 of the table is 255
(`Math.pow(0, 0)` is 1), and for `gamma` equal to `NaN`, `+Infinity` or
`-Infinity` entry 255 is 0 (`Math.pow(1, gamma)` is `NaN`). -/
theorem getGammaLUT_counterexample :
    (getGammaLUT crudePow (.fin 0))[0]? = some 255 ∧
    (getGammaLUT crudePow .nan)[255]? = some 0 ∧
    (getGammaLUT crudePow .posInf)[255]? = some 0 ∧
    (getGammaLUT crudePow .negInf)[255]? = some 0 := by
  have h01 : JSNum.fin 0 ≠ JSNum.fin 1 := by
    intro h
    have := JSNum.fin.inj h
    norm_num at this
  refine ⟨?_, ?_, ?_, ?_⟩
  · rw [getGammaLUT_entry _ _ 0 h01 (by norm_num), gammaEntry_first]
    simp [toUint8Clamp]
  · rw [getGammaLUT_entry _ _ 255 (by simp) (by norm_num), gammaEntry_last]
    simp [toUint8Clamp]
  · rw [getGammaLUT_entry _ _ 255 (by simp) (by norm_num), gammaEntry_last]
    simp [toUint8Clamp]
  · rw [getGammaLUT_entry _ _ 255 (by simp) (by norm_num), gammaEntry_last]
    simp [toUint8Clamp]

/-- C6 as amended. For every number `gamma` other than 0, entry 0 of
`getGammaLUT(gamma)` is 0; for every finite `gamma`, entry 255 is 255 as soon
as the host's `Math.pow(1, gamma)` is exactly 1. So both ends are as claimed
for every finite non-zero `gamma`. -/
theorem getGammaLUT_ends (approx : ℚ → ℚ → JSNum) (gamma : JSNum) :
    (gamma ≠ .fin 0 → (getGammaLUT approx gamma)[0]? = some 0) ∧
    (∀ y : ℚ, gamma = .fin y → approx 1 y = .fin 1 →
      (getGammaLUT approx gamma)[255]? = some 255) := by
  constructor
  · intro h0
    by_cases h1 : gamma = .fin 1
    · subst h1
      exact getGammaLUT_one_entry approx 0 (by norm_num)
    · rw [getGammaLUT_entry _ _ 0 h1 (by norm_num), gammaEntry_first, if_neg h0]
      simp [toUint8Clamp]
  · intro y hy hexact
    subst hy
    by_cases h1 : JSNum.fin y = .fin 1
    · rw [h1]
      exact getGammaLUT_one_entry approx 255 (by norm_num)
    · rw [getGammaLUT_entry _ _ 255 h1 (by norm_num), gammaEntry_last]
      simp only
      by_cases hy0 : y = 0
      · simp [hy0, toUint8Clamp]
      · rw [if_neg hy0, hexact, scaled_one]
        simp [toUint8Clamp]

/-- C6 as amended, at `gamma = 1/2` with a power that is exact at base 1. -/
theorem getGammaLUT_ends_witness :
    (JSNum.fin (1 / 2) ≠ .fin 0 ∧ crudePow 1 (1 / 2) = .fin 1) ∧
    (getGammaLUT crudePow (.fin (1 / 2)))[0]? = some 0 ∧
    (getGammaLUT crudePow (.fin (1 / 2)))[255]? = some 255 := by
  have hne : JSNum.fin (1 / 2) ≠ .fin 0 := by
    intro h
    have := JSNum.fin.inj h
    norm_num at this
  have hexact : crudePow 1 (1 / 2) = .fin 1 := by simp [crudePow]
  exact ⟨⟨hne, hexact⟩,
    (getGammaLUT_ends crudePow (.fin (1 / 2))).1 hne,
    (getGammaLUT_ends crudePow (.fin (1 / 2))).2 (1 / 2) rfl hexact⟩

/-- C8. The table `getGammaLUT(1)` has 256 entries and entry `i` is `i` for
every `i` in [0, 255]: it is the list 0, 1, ..., 255. -/
theorem getGammaLUT_identity (approx : ℚ → ℚ → JSNum) :
    getGammaLUT approx (.fin 1) = List.range 256 ∧
    (getGammaLUT approx (.fin 1)).length = 256 ∧
    ∀ i, i < 256 → (getGammaLUT approx (.fin 1))[i]? = some i := by
  refine ⟨?_, getGammaLUT_length approx _, fun i hi => getGammaLUT_one_entry approx i hi⟩
  apply List.ext_getElem?
  intro n
  by_cases hn : n < 256
  · rw [getGammaLUT_one_entry approx n hn, List.getElem?_range hn]
  · rw [List.getElem?_eq_none (by rw [getGammaLUT_length]; omega),
      List.getElem?_eq_none (by rw [List.length_range]; omega)]

/-- C8 at entry 10 of the table. -/
theorem getGammaLUT_identity_witness :
    (10 < 256) ∧ (getGammaLUT crudePow (.fin 1))[10]? = some 10 :=
  ⟨by decide, (getGammaLUT_identity crudePow).2.2 10 (by decide)⟩

/-! ## C7: monotonicity of `getGammaLUT` -/

theorem roundHalfEven_mono (x y : ℚ) (h : x ≤ y) : roundHalfEven x ≤ roundHalfEven y := by
  have hf : ⌊x⌋ ≤ ⌊y⌋ := Int.floor_mono h
  by_cases heq : ⌊x⌋ = ⌊y⌋
  · unfold roundHalfEven
    rw [heq]
    split_ifs <;> first | omega | (exfalso; linarith)
  · have h1 : roundHalfEven x ≤ ⌊x⌋ + 1 := by
      unfold roundHalfEven
      split_ifs <;> omega
    have h2 : ⌊y⌋ ≤ roundHalfEven y := by
      unfold roundHalfEven
      split_ifs <;> omega
    omega

theorem ulpExp_mono (q1 q2 : ℚ) (h0 : 0 < q1) (h : q1 ≤ q2) : ulpExp q1 ≤ ulpExp q2 := by
  unfold ulpExp
  have hl : Int.log 2 |q1| ≤ Int.log 2 |q2| := by
    rw [abs_of_pos h0, abs_of_pos (lt_of_lt_of_le h0 h)]
    exact Int.log_mono_right h0 h
  apply max_le_max _ (le_refl _)
  omega

/-- The rounded value is at most any bound on a grid no finer than its own. -/
theorem roundValue_le_grid (q : ℚ) (b k : Int) (he : ulpExp q ≤ k) (hb : q ≤ (b : ℚ) * 2 ^ k) :
    (roundHalfEven (q / 2 ^ ulpExp q) : ℚ) * 2 ^ ulpExp q ≤ (b : ℚ) * 2 ^ k := by
  have hpos := two_zpow_pos (ulpExp q)
  have hB : q / 2 ^ ulpExp q ≤ ((b * 2 ^ (k - ulpExp q).toNat : Int) : ℚ) := by
    rw [← scaled_eq_intCast b k _ he]
    exact div_le_div_of_nonneg_right hb (le_of_lt hpos)
  have h3 : (roundHalfEven (q / 2 ^ ulpExp q) : ℚ) ≤ ((b * 2 ^ (k - ulpExp q).toNat : Int) : ℚ) := by
    exact_mod_cast roundHalfEven_le _ _ hB
  calc (roundHalfEven (q / 2 ^ ulpExp q) : ℚ) * 2 ^ ulpExp q
      ≤ ((b * 2 ^ (k - ulpExp q).toNat : Int) : ℚ) * 2 ^ ulpExp q :=
        mul_le_mul_of_nonneg_right h3 (le_of_lt hpos)
    _ = ((b : ℚ) * 2 ^ k) / 2 ^ ulpExp q * 2 ^ ulpExp q := by
        rw [scaled_eq_intCast b k _ he]
    _ = (b : ℚ) * 2 ^ k := div_mul_cancel₀ _ (ne_of_gt hpos)

/-- The rounded value is at least any bound on a grid no finer than its own. -/
theorem grid_le_roundValue (q : ℚ) (a k : Int) (he : ulpExp q ≤ k) (ha : (a : ℚ) * 2 ^ k ≤ q) :
    (a : ℚ) * 2 ^ k ≤ (roundHalfEven (q / 2 ^ ulpExp q) : ℚ) * 2 ^ ulpExp q := by
  have hpos := two_zpow_pos (ulpExp q)
  have hA : ((a * 2 ^ (k - ulpExp q).toNat : Int) : ℚ) ≤ q / 2 ^ ulpExp q := by
    rw [← scaled_eq_intCast a k _ he]
    exact div_le_div_of_nonneg_right ha (le_of_lt hpos)
  have h2 : ((a * 2 ^ (k - ulpExp q).toNat : Int) : ℚ) ≤ (roundHalfEven (q / 2 ^ ulpExp q) : ℚ) := by
    exact_mod_cast le_roundHalfEven _ _ hA
  calc (a : ℚ) * 2 ^ k = ((a : ℚ) * 2 ^ k) / 2 ^ ulpExp q * 2 ^ ulpExp q :=
        (div_mul_cancel₀ _ (ne_of_gt hpos)).symm
    _ = ((a * 2 ^ (k - ulpExp q).toNat : Int) : ℚ) * 2 ^ ulpExp q := by
        rw [scaled_eq_intCast a k _ he]
    _ ≤ _ := mul_le_mul_of_nonneg_right h2 (le_of_lt hpos)

theorem roundDouble_fin_eq (q r : ℚ) (h : roundDouble q = .fin r) :
    r = (roundHalfEven (q / 2 ^ ulpExp q) : ℚ) * 2 ^ ulpExp q := by
  unfold roundDouble at h
  simp only at h
  split at h
  · split at h <;> simp at h
  · exact (JSNum.fin.inj h).symm

/-- Rounding to binary64 is monotone on non-negative rationals. -/
theorem roundDouble_mono (q1 q2 r1 r2 : ℚ) (h0 : 0 ≤ q1) (h : q1 ≤ q2)
    (h1 : roundDouble q1 = .fin r1) (h2 : roundDouble q2 = .fin r2) : r1 ≤ r2 := by
  rw [roundDouble_fin_eq q1 r1 h1, roundDouble_fin_eq q2 r2 h2]
  rcases eq_or_lt_of_le h0 with hz | hp
  · subst hz
    have h3 := grid_le_roundValue q2 0 (ulpExp q2) (le_refl _) (by simpa using h)
    simp only [zero_div, roundHalfEven_intCast]
    have hr : roundHalfEven (0 : ℚ) = 0 := by
      have := roundHalfEven_intCast 0
      simpa using this
    rw [hr]
    simpa using h3
  · have he := ulpExp_mono q1 q2 hp h
    rcases eq_or_lt_of_le he with heq | hlt
    · rw [← heq]
      have hpos := two_zpow_pos (ulpExp q1)
      have hx : q1 / 2 ^ ulpExp q1 ≤ q2 / 2 ^ ulpExp q1 :=
        div_le_div_of_nonneg_right h (le_of_lt hpos)
      have hm : (roundHalfEven (q1 / 2 ^ ulpExp q1) : ℚ) ≤ (roundHalfEven (q2 / 2 ^ ulpExp q1) : ℚ) := by
        exact_mod_cast roundHalfEven_mono _ _ hx
      exact mul_le_mul_of_nonneg_right hm (le_of_lt hpos)
    · -- a power of two separates the two arguments
      have hp2 : 0 < q2 := lt_of_lt_of_le hp h
      have hl1 : Int.log 2 |q1| - 52 ≤ ulpExp q1 := le_max_left _ _
      have hm1 : -1074 ≤ ulpExp q1 := le_max_right _ _
      have hl2 : ulpExp q2 = Int.log 2 |q2| - 52 := by
        unfold ulpExp at hlt ⊢
        rcases max_cases (Int.log 2 |q2| - 52) (-1074) with ⟨hmax, _⟩ | ⟨hmax, _⟩
        · exact hmax
        · rw [hmax] at hlt
          unfold ulpExp at hm1
          omega
      have hq1 : q1 < 2 ^ (ulpExp q2 + 52) := by
        have : Int.log 2 q1 < ulpExp q2 + 52 := by
          rw [abs_of_pos hp] at hl1
          omega
        have := (Int.lt_zpow_iff_log_lt (by norm_num : 1 < 2) hp).mpr this
        exact_mod_cast this
      have hq2 : (2 : ℚ) ^ (ulpExp q2 + 52) ≤ q2 := by
        have : ulpExp q2 + 52 ≤ Int.log 2 q2 := by
          rw [abs_of_pos hp2] at hl2
          omega
        have := (Int.zpow_le_iff_le_log (by norm_num : 1 < 2) hp2).mpr this
        exact_mod_cast this
      have hup := roundValue_le_grid q1 1 (ulpExp q2 + 52) (by omega)
        (by simpa using le_of_lt hq1)
      have hdown := grid_le_roundValue q2 1 (ulpExp q2 + 52) (by omega)
        (by simpa using hq2)
      exact le_trans hup hdown

theorem ulpExp_zero : ulpExp 0 = -52 := by
  simp [ulpExp, Int.log_zero_right]

/-- The quotient `i / 255` for `1 ≤ i ≤ 255` is a finite number in (0, 1]. -/
theorem base_unit (i : Nat) (h1 : 1 ≤ i) (h2 : i ≤ 255) :
    ∃ b : ℚ, roundDouble ((i : ℚ) / 255) = .fin b ∧ 0 < b ∧ b ≤ 1 := by
  have hi1 : (1 : ℚ) ≤ (i : ℚ) := by exact_mod_cast h1
  have hi2 : (i : ℚ) ≤ 255 := by exact_mod_cast h2
  have hq0 : (0 : ℚ) < (i : ℚ) / 255 := by positivity
  have hq1 : (i : ℚ) / 255 ≤ 1 := by
    rw [div_le_one (by norm_num)]
    exact hi2
  have hlo : (1 : ℚ) / 255 ≤ (i : ℚ) / 255 :=
    div_le_div_of_nonneg_right hi1 (by norm_num)
  have hulp : ulpExp ((i : ℚ) / 255) ≤ -52 := by
    apply ulpExp_le _ _ (by norm_num) (ne_of_gt hq0)
    rw [abs_of_pos hq0]
    have : (2 : ℚ) ^ ((-52 : Int) + 53) = 2 := by norm_num
    rw [this]
    linarith
  have h52 : (2 : ℚ) ^ (-52 : Int) = 1 / 4503599627370496 := by norm_num
  obtain ⟨b, hb, hblo, hbhi⟩ := roundDouble_between ((i : ℚ) / 255) 1 4503599627370496 (-52) hulp
    (by rw [h52]; norm_num; linarith)
    (by rw [h52]; norm_num; linarith)
    (by
      have := two_zpow_pos 1024
      rw [h52]
      norm_num)
    (by rw [h52]; norm_num)
  refine ⟨b, hb, ?_, ?_⟩
  · rw [h52] at hblo
    norm_num at hblo
    linarith
  · rw [h52] at hbhi
    norm_num at hbhi
    linarith

/-- The expression `(p * 255 + 0.5)|0` for a finite power `p` in [0, 1]: both
roundings stay finite and the result is the integer part of the second. -/
theorem scaleToByte_unit (p : ℚ) (h0 : 0 ≤ p) (h1 : p ≤ 1) :
    ∃ u w : ℚ, roundDouble (p * 255) = .fin u ∧ roundDouble (u + 1 / 2) = .fin w ∧
      0 ≤ u ∧ 1 / 2 ≤ w ∧ w ≤ 511 / 2 ∧ scaleToByte (.fin p) = ⌊w⌋ := by
  have hulp1 : ulpExp (p * 255) ≤ 0 := by
    by_cases hz : p * 255 = 0
    · rw [hz, ulpExp_zero]
      norm_num
    · apply ulpExp_le _ _ (by norm_num) hz
      rw [abs_of_nonneg (by positivity)]
      have : (2 : ℚ) ^ ((0 : Int) + 53) = 9007199254740992 := by norm_num
      rw [this]
      linarith
  obtain ⟨u, hu, hulo, huhi⟩ := roundDouble_between (p * 255) 0 255 0 hulp1
    (by norm_num; positivity) (by norm_num; linarith)
    (by
      have := two_zpow_pos 1024
      norm_num)
    (by norm_num)
  have hu0 : 0 ≤ u := by
    norm_num at hulo
    exact hulo
  have hu1 : u ≤ 255 := by
    norm_num at huhi
    exact huhi
  have hulp2 : ulpExp (u + 1 / 2) ≤ -1 := by
    apply ulpExp_le _ _ (by norm_num) (by positivity)
    rw [abs_of_nonneg (by positivity)]
    have : (2 : ℚ) ^ ((-1 : Int) + 53) = 4503599627370496 := by norm_num
    rw [this]
    linarith
  obtain ⟨w, hw, hwlo, hwhi⟩ := roundDouble_between (u + 1 / 2) 1 511 (-1) hulp2
    (by norm_num; linarith) (by norm_num; linarith)
    (by
      have := two_zpow_pos 1024
      norm_num)
    (by norm_num)
  have hw0 : 1 / 2 ≤ w := by
    norm_num at hwlo ⊢
    exact hwlo
  have hw1 : w ≤ 511 / 2 := by
    norm_num at hwhi ⊢
    exact hwhi
  refine ⟨u, w, hu, hw, hu0, hw0, hw1, ?_⟩
  simp only [scaleToByte, JSNum.mul, JSNum.add, hu, hw]
  apply toInt32_fin_of_floor _ _ (by linarith) rfl
  have : ⌊w⌋ < 256 := by
    rw [Int.floor_lt]
    push_cast
    linarith
  omega

/-- On finite powers in [0, 1] the expression `(p * 255 + 0.5)|0` is monotone
and has its values in [0, 255]. -/
theorem scaleToByte_mono (p p' : ℚ) (h0 : 0 ≤ p) (h : p ≤ p') (h1 : p' ≤ 1) :
    0 ≤ scaleToByte (.fin p) ∧ scaleToByte (.fin p) ≤ scaleToByte (.fin p') ∧
      scaleToByte (.fin p') ≤ 255 := by
  obtain ⟨u, w, hu, hw, hu0, hw0, _, hs⟩ := scaleToByte_unit p h0 (le_trans h h1)
  obtain ⟨u', w', hu', hw', _, _, hw1', hs'⟩ := scaleToByte_unit p' (le_trans h0 h) h1
  have huu : u ≤ u' := roundDouble_mono (p * 255) (p' * 255) u u' (by positivity)
    (by linarith) hu hu'
  have hww : w ≤ w' := roundDouble_mono (u + 1 / 2) (u' + 1 / 2) w w' (by positivity)
    (by linarith) hw hw'
  rw [hs, hs']
  refine ⟨Int.floor_nonneg.mpr (by linarith), Int.floor_mono hww, ?_⟩
  have : ⌊w'⌋ < 256 := by
    rw [Int.floor_lt]
    push_cast
    linarith
  omega

theorem toUint8Clamp_mono (a b : Int) (h : a ≤ b) : toUint8Clamp a ≤ toUint8Clamp b := by
  unfold toUint8Clamp
  split_ifs <;> omega

/-- With `gamma = +Infinity` every value of the loop body is 0. -/
theorem gammaEntry_posInf (approx : ℚ → ℚ → JSNum) (i : Nat) :
    gammaEntry approx .posInf i = 0 := by
  unfold gammaEntry
  cases roundDouble ((i : ℚ) / 255) with
  | nan => simp only [Math.pow]; exact scaled_nan
  | posInf => simp only [Math.pow]; exact scaled_posInf
  | negInf => simp only [Math.pow]; exact scaled_posInf
  | fin x =>
    simp only [Math.pow]
    split_ifs
    · exact scaled_posInf
    · exact scaled_nan
    · exact scaled_zero

/-- The value of the loop body at an index `1 ≤ i ≤ 255` for a finite exponent
`y > 0`: the host's power of the rounded quotient, scaled. -/
theorem gammaEntry_pos (approx : ℚ → ℚ → JSNum) (y : ℚ) (hy : 0 < y) (i : Nat)
    (h1 : 1 ≤ i) (h2 : i ≤ 255) :
    ∃ b : ℚ, roundDouble ((i : ℚ) / 255) = .fin b ∧ 0 < b ∧ b ≤ 1 ∧
      gammaEntry approx (.fin y) i = scaleToByte (approx b y) := by
  obtain ⟨b, hb, hb0, hb1⟩ := base_unit i h1 h2
  refine ⟨b, hb, hb0, hb1, ?_⟩
  unfold gammaEntry
  rw [hb]
  have hy0 : y ≠ 0 := ne_of_gt hy
  have hbne : b ≠ 0 := ne_of_gt hb0
  have hbn : ¬ b < 0 := not_lt.mpr (le_of_lt hb0)
  simp only [Math.pow, hy0, hbne, hbn, if_false, false_and]

/-- C7 fails for an arbitrary host: with a `Math.pow` that decreases in its
base (`adversePow`) and `gamma = 2`, entry 1 of the table is 255 and entry 255
is 0. -/
theorem getGammaLUT_monotone_counterexample :
    (0 : ℚ) < 2 ∧
    (getGammaLUT adversePow (.fin 2))[1]? = some 255 ∧
    (getGammaLUT adversePow (.fin 2))[255]? = some 0 ∧
    ¬ (255 ≤ 0) := by
  have h21 : JSNum.fin 2 ≠ JSNum.fin 1 := by
    intro h
    have := JSNum.fin.inj h
    norm_num at this
  refine ⟨by norm_num, ?_, ?_, by decide⟩
  · rw [getGammaLUT_entry _ _ 1 h21 (by norm_num)]
    obtain ⟨b, hb, _, _, he⟩ := gammaEntry_pos adversePow 2 (by norm_num) 1 (le_refl _)
      (by norm_num)
    have hq0 : (0 : ℚ) < ((1 : Nat) : ℚ) / 255 := by norm_num
    have hulp : ulpExp (((1 : Nat) : ℚ) / 255) ≤ -52 := by
      apply ulpExp_le _ _ (by norm_num) (ne_of_gt hq0)
      rw [abs_of_pos hq0]
      norm_num
    obtain ⟨b', hb', _, hbhi⟩ := roundDouble_between (((1 : Nat) : ℚ) / 255) 0
      1125899906842624 (-52) hulp (by norm_num) (by norm_num)
      (by
        have := two_zpow_pos 1024
        norm_num)
      (by norm_num)
    have hbb : b = b' := JSNum.fin.inj (hb.symm.trans hb')
    have hlt : b < 1 / 2 := by
      rw [hbb]
      norm_num at hbhi
      linarith
    rw [he]
    simp only [adversePow, hlt, if_true, scaled_one]
    simp [toUint8Clamp]
  · rw [getGammaLUT_entry _ _ 255 h21 (by norm_num), gammaEntry_last]
    have hnl : ¬ ((1 : ℚ) < 1 / 2) := by norm_num
    simp only [adversePow, hnl, if_false]
    norm_num [scaled_zero, toUint8Clamp]

/-- C7 as amended. For `gamma = +Infinity`, and for every finite `gamma > 0`
when the host's `Math.pow(x, gamma)` is, on bases `x` in (0, 1], finite, in
[0, 1] and non-decreasing in `x`, the table `getGammaLUT(gamma)` is
non-decreasing: for all indices `i ≤ j ≤ 255`, entry `i` is at most entry
`j`. -/
theorem getGammaLUT_monotone (approx : ℚ → ℚ → JSNum) (gamma : JSNum)
    (hpos : gamma = .posInf ∨ ∃ y : ℚ, 0 < y ∧ gamma = .fin y)
    (hhost : ∀ y : ℚ, gamma = .fin y → MonotoneOnUnit approx y)
    (i j : Nat) (hij : i ≤ j) (hj : j ≤ 255) :
    ∃ a b : Nat, (getGammaLUT approx gamma)[i]? = some a ∧
      (getGammaLUT approx gamma)[j]? = some b ∧ a ≤ b := by
  rcases hpos with hinf | ⟨y, hy, hg⟩
  · subst hinf
    refine ⟨_, _, getGammaLUT_entry approx _ i (by simp) (by omega),
      getGammaLUT_entry approx _ j (by simp) (by omega), ?_⟩
    rw [gammaEntry_posInf, gammaEntry_posInf]
  · subst hg
    by_cases h1 : JSNum.fin y = .fin 1
    · rw [h1]
      exact ⟨i, j, getGammaLUT_one_entry approx i (by omega),
        getGammaLUT_one_entry approx j (by omega), hij⟩
    · refine ⟨_, _, getGammaLUT_entry approx _ i h1 (by omega),
        getGammaLUT_entry approx _ j h1 (by omega), ?_⟩
      apply toUint8Clamp_mono
      have hy0 : JSNum.fin y ≠ JSNum.fin 0 := by
        intro h
        exact (ne_of_gt hy) (JSNum.fin.inj h)
      have hmono := hhost y rfl
      rcases Nat.eq_zero_or_pos i with hi0 | hipos
      · -- entry 0 is 0 and every entry is non-negative
        subst hi0
        rw [gammaEntry_first, if_neg hy0]
        rcases Nat.eq_zero_or_pos j with hj0 | hjpos
        · subst hj0
          rw [gammaEntry_first, if_neg hy0]
        · obtain ⟨b, _, hb0, hb1, he⟩ := gammaEntry_pos approx y hy j hjpos hj
          obtain ⟨p, p', hp, hp', hp0, hpp, hp1⟩ := hmono b b hb0 (le_refl _) hb1
          rw [he, hp]
          exact (scaleToByte_mono p p hp0 (le_refl _) (le_trans hpp hp1)).1
      · obtain ⟨bi, hbi, hbi0, _, hei⟩ := gammaEntry_pos approx y hy i hipos (by omega)
        obtain ⟨bj, hbj, _, hbj1, hej⟩ := gammaEntry_pos approx y hy j (by omega) hj
        have hq : (i : ℚ) / 255 ≤ (j : ℚ) / 255 :=
          div_le_div_of_nonneg_right (by exact_mod_cast hij) (by norm_num)
        have hbb : bi ≤ bj :=
          roundDouble_mono _ _ bi bj (by positivity) hq hbi hbj
        obtain ⟨p, p', hp, hp', hp0, hpp, hp1⟩ := hmono bi bj hbi0 hbb hbj1
        rw [hei, hej, hp, hp']
        exact (scaleToByte_mono p p' hp0 hpp hp1).2.1

/-- C7 as amended, at `gamma = 1/2`, a host power that is 1 at base 1 and 0
below, and the indices 10 and 255. -/
theorem getGammaLUT_monotone_witness :
    ((JSNum.fin (1 / 2) = .posInf ∨ ∃ y : ℚ, 0 < y ∧ JSNum.fin (1 / 2) = .fin y) ∧
      (∀ y : ℚ, JSNum.fin (1 / 2) = .fin y → MonotoneOnUnit crudePow y) ∧
      10 ≤ 255 ∧ 255 ≤ 255) ∧
    ∃ a b : Nat, (getGammaLUT crudePow (.fin (1 / 2)))[10]? = some a ∧
      (getGammaLUT crudePow (.fin (1 / 2)))[255]? = some b ∧ a ≤ b := by
  have hpos : JSNum.fin (1 / 2) = .posInf ∨ ∃ y : ℚ, 0 < y ∧ JSNum.fin (1 / 2) = .fin y :=
    Or.inr ⟨1 / 2, by norm_num, rfl⟩
  have hhost : ∀ y : ℚ, JSNum.fin (1 / 2) = .fin y → MonotoneOnUnit crudePow y := by
    intro y _ x x' hx hxx hx1
    refine ⟨if x = 1 then 1 else 0, if x' = 1 then 1 else 0, rfl, rfl, ?_, ?_, ?_⟩
    · split_ifs <;> norm_num
    · by_cases h1 : x = 1
      · have : x' = 1 := le_antisymm hx1 (h1 ▸ hxx)
        simp [h1, this]
      · simp only [h1, if_false]
        split_ifs <;> norm_num
    · split_ifs <;> norm_num
  exact ⟨⟨hpos, hhost, by decide, by decide⟩,
    getGammaLUT_monotone crudePow (.fin (1 / 2)) hpos hhost 10 255 (by decide) (by decide)⟩

end PsdReader
